import Mathlib

/-! Formal model of the Scrub cog's URL-cleaning engine (`Scrub/scrub.py`,
method `clean_url`), together with the parts of CPython's `urllib.parse`
(version 3.11) that it relies on: `urlsplit`, `urlparse`, `urlunsplit`,
`urlunparse`, `_splitparams`, `_splitnetloc`, `parse_qsl`, `urlencode`,
`quote_plus` and `unquote`.

Python strings are modelled as `List Char` (a `str` is a sequence of code
points).  Compiled regular expressions are modelled by their matching
behaviour: a pattern is a function from the subject string to the outcome of
`re.match(pattern, subject, ...)` (for `re.match`, a prefix match that may
also capture a group), and `re.sub(pattern, "", s)` is modelled as a function
from strings to strings.  Concrete instances used in test vectors are built
from literal patterns.

The `ValueError("Invalid IPv6 URL")` raised by `urlsplit` on a netloc with
mismatched square brackets is modelled with `Except`; it propagates out of
`clean_url` exactly as the uncaught Python exception does.  (CPython 3.11
additionally validates well-bracketed hosts (`_check_bracketed_host`) and
netloc NFKC normalisation (`_checknetloc`); those further error paths are not
modelled.) -/

/-- Python strings as lists of code points. -/
abbrev Str := List Char

/-- Code points of a Lean string literal, used for concrete test vectors. -/
def str (s : String) : Str := s.data

/-- Python's `c in s` membership test for characters of a string. -/
def hasChar (c : Char) (s : Str) : Bool := s.any (fun d => d = c)

/-- Python's `s.split(sep, 1)` as far as it is used here: split at the first
occurrence of `sep`, returning the parts before and after it, or `none` when
`sep` does not occur. -/
def splitFirst (sep : Char) : Str → Option (Str × Str)
  | [] => none
  | c :: cs =>
    if c = sep then some ([], cs)
    else (splitFirst sep cs).map (fun p => (c :: p.1, p.2))

/-- Split at the last occurrence of `sep` (Python `s.rfind`): the returned
second component contains no further `sep`. -/
def splitLast (sep : Char) (s : Str) : Option (Str × Str) :=
  (splitFirst sep s.reverse).map (fun p => (p.2.reverse, p.1.reverse))

/-- Python's `s.split(sep)` (full split; `"".split(sep) = [""]`). -/
def pySplit (sep : Char) : Str → List Str
  | [] => [[]]
  | c :: cs =>
    if c = sep then [] :: pySplit sep cs
    else
      match pySplit sep cs with
      | g :: gs => (c :: g) :: gs
      | [] => [[c]]

/-- ASCII lower-casing of one character (`str.lower` restricted to ASCII; the
engine only lower-cases URL schemes, whose characters are ASCII). -/
def asciiLowerChar (c : Char) : Char :=
  if 'A' ≤ c ∧ c ≤ 'Z' then Char.ofNat (c.toNat + 32) else c

/-- ASCII lower-casing of a string. -/
def asciiLower (s : Str) : Str := s.map asciiLowerChar

/-! ### Percent-coding: `unquote`, `quote_plus`, `urlencode`, `parse_qsl` -/

/-- Value of a hexadecimal digit (`string.hexdigits`), or `none`. -/
def hexVal (c : Char) : Option Nat :=
  if '0' ≤ c ∧ c ≤ '9' then some (c.toNat - '0'.toNat)
  else if 'a' ≤ c ∧ c ≤ 'f' then some (c.toNat - 'a'.toNat + 10)
  else if 'A' ≤ c ∧ c ≤ 'F' then some (c.toNat - 'A'.toNat + 10)
  else none

/-- Upper-case hexadecimal digit of a value below 16. -/
def hexDigitU (n : Nat) : Char :=
  if n < 10 then Char.ofNat ('0'.toNat + n) else Char.ofNat ('A'.toNat + (n - 10))

/-- UTF-8 encoding of one code point, as byte values. -/
def utf8Bytes (c : Char) : List Nat :=
  let n := c.toNat
  if n < 0x80 then [n]
  else if n < 0x800 then [0xC0 + n / 0x40, 0x80 + n % 0x40]
  else if n < 0x10000 then
    [0xE0 + n / 0x1000, 0x80 + n / 0x40 % 0x40, 0x80 + n % 0x40]
  else
    [0xF0 + n / 0x40000, 0x80 + n / 0x1000 % 0x40, 0x80 + n / 0x40 % 0x40,
      0x80 + n % 0x40]

/-- Intermediate tokens of `unquote`: `byte` values produced from ASCII runs
(with `%xx` escapes decoded, as in `unquote_to_bytes`), and non-ASCII
characters passed through unchanged (the split on `_asciire`). -/
inductive Tok where
  | byte (b : Nat)
  | raw (c : Char)
deriving DecidableEq

/-- Tokenisation step of `unquote`: ASCII characters become bytes, with
`%` followed by two hex digits becoming the escaped byte (a `%` not followed
by two hex digits stays literal, as in `unquote_to_bytes`); non-ASCII
characters pass through. -/
def pctTokens : Str → List Tok
  | [] => []
  | '%' :: h1 :: h2 :: cs2 =>
    match hexVal h1, hexVal h2 with
    | some a, some b => .byte (16 * a + b) :: pctTokens cs2
    | _, _ => .byte ('%'.toNat) :: pctTokens (h1 :: h2 :: cs2)
  | c :: cs =>
    if 0x80 ≤ c.toNat then .raw c :: pctTokens cs
    else .byte c.toNat :: pctTokens cs

/-- The U+FFFD replacement character used by `bytes.decode("utf-8", "replace")`. -/
def replChar : Char := Char.ofNat 0xFFFD

/-- Is `b` a UTF-8 continuation byte? -/
def isCont (b : Nat) : Bool := 0x80 ≤ b ∧ b ≤ 0xBF

/-- Lower bound for the second byte of a multi-byte UTF-8 sequence headed by
`b1` (the E0/F0 special cases). -/
def cont2lo (b1 : Nat) : Nat :=
  if b1 = 0xE0 then 0xA0 else if b1 = 0xF0 then 0x90 else 0x80

/-- Upper bound for the second byte of a multi-byte UTF-8 sequence headed by
`b1` (the ED/F4 special cases, excluding surrogates and values above
U+10FFFF). -/
def cont2hi (b1 : Nat) : Nat :=
  if b1 = 0xED then 0x9F else if b1 = 0xF4 then 0x8F else 0xBF

/-- UTF-8 decoding with `errors="replace"` over the token stream: maximal
runs of bytes are decoded, a `raw` token interrupts any multi-byte sequence,
and an invalid or truncated sequence yields one U+FFFD for its maximal valid
prefix (the WHATWG policy used by CPython).  The `Nat` argument is fuel
bounding the number of tokens still to consume (each step consumes at least
one token), which makes the recursion structural; `utf8DecodeToks` supplies
enough fuel, so the out-of-fuel branch is never reached. -/
def utf8DecodeFuel : Nat → List Tok → Str
  | 0, _ => []
  | _ + 1, [] => []
  | fuel + 1, .raw c :: ts => c :: utf8DecodeFuel fuel ts
  | fuel + 1, .byte b :: ts =>
    if b < 0x80 then Char.ofNat b :: utf8DecodeFuel fuel ts
    else if 0xC2 ≤ b ∧ b ≤ 0xDF then
      match ts with
      | .byte b2 :: ts2 =>
        if isCont b2 then
          Char.ofNat ((b - 0xC0) * 0x40 + (b2 - 0x80)) :: utf8DecodeFuel fuel ts2
        else replChar :: utf8DecodeFuel fuel ts
      | _ => replChar :: utf8DecodeFuel fuel ts
    else if 0xE0 ≤ b ∧ b ≤ 0xEF then
      match ts with
      | .byte b2 :: ts2 =>
        if cont2lo b ≤ b2 ∧ b2 ≤ cont2hi b then
          match ts2 with
          | .byte b3 :: ts3 =>
            if isCont b3 then
              Char.ofNat ((b - 0xE0) * 0x1000 + (b2 - 0x80) * 0x40 + (b3 - 0x80)) ::
                utf8DecodeFuel fuel ts3
            else replChar :: utf8DecodeFuel fuel ts2
          | _ => replChar :: utf8DecodeFuel fuel ts2
        else replChar :: utf8DecodeFuel fuel ts
      | _ => replChar :: utf8DecodeFuel fuel ts
    else if 0xF0 ≤ b ∧ b ≤ 0xF4 then
      match ts with
      | .byte b2 :: ts2 =>
        if cont2lo b ≤ b2 ∧ b2 ≤ cont2hi b then
          match ts2 with
          | .byte b3 :: ts3 =>
            if isCont b3 then
              match ts3 with
              | .byte b4 :: ts4 =>
                if isCont b4 then
                  Char.ofNat ((b - 0xF0) * 0x40000 + (b2 - 0x80) * 0x1000 +
                      (b3 - 0x80) * 0x40 + (b4 - 0x80)) :: utf8DecodeFuel fuel ts4
                else replChar :: utf8DecodeFuel fuel ts3
              | _ => replChar :: utf8DecodeFuel fuel ts3
            else replChar :: utf8DecodeFuel fuel ts2
          | _ => replChar :: utf8DecodeFuel fuel ts2
        else replChar :: utf8DecodeFuel fuel ts
      | _ => replChar :: utf8DecodeFuel fuel ts
    else replChar :: utf8DecodeFuel fuel ts

/-- UTF-8 decoding with replacement of a token stream. -/
def utf8DecodeToks (ts : List Tok) : Str := utf8DecodeFuel ts.length ts

/-- Python's `urllib.parse.unquote` with the default UTF-8 / replace policy:
percent-escapes inside ASCII runs are decoded to bytes and the runs decoded
as UTF-8; non-ASCII characters pass through. -/
def unquote (s : Str) : Str := utf8DecodeToks (pctTokens s)

/-- `unquote` after Python's `s.replace("+", " ")`, as done by `parse_qsl` on
names and values. -/
def unquotePlus (s : Str) : Str :=
  unquote (s.map (fun c => if c = '+' then ' ' else c))

/-- The characters `quote` never escapes (`_ALWAYS_SAFE`: ASCII alphanumerics
and `_.-~`); `urlencode` is called with an empty `safe` set. -/
def isAlwaysSafe (c : Char) : Bool :=
  c.isAlpha ∨ c.isDigit ∨ c = '_' ∨ c = '.' ∨ c = '-' ∨ c = '~'

/-- Percent-escape of one byte value, upper-case hex. -/
def pctEncByte (b : Nat) : Str := ['%', hexDigitU (b / 16), hexDigitU (b % 16)]

/-- `quote_plus` on one character with empty `safe`: safe characters pass,
space becomes `+`, everything else is percent-escaped byte-wise. -/
def quotePlusChar (c : Char) : Str :=
  if isAlwaysSafe c then [c]
  else if c = ' ' then ['+']
  else ((utf8Bytes c).map pctEncByte).flatten

/-- Python's `urllib.parse.quote_plus` with empty `safe`. -/
def quotePlus (s : Str) : Str := (s.map quotePlusChar).flatten

/-- Python's `urllib.parse.urlencode` on a list of string pairs (default
`doseq=False`, `quote_via=quote_plus`). -/
def urlencode (l : List (Str × Str)) : Str :=
  List.intercalate ['&'] (l.map (fun kv => quotePlus kv.1 ++ '=' :: quotePlus kv.2))

/-- Python's `urllib.parse.parse_qsl` with its defaults (separator `&`,
`keep_blank_values=False`, `strict_parsing=False`): empty fields and fields
without `=` or with an empty value are dropped; names and values are
plus-decoded and unquoted. -/
def parse_qsl (qs : Str) : List (Str × Str) :=
  (if qs = [] then [] else pySplit '&' qs).filterMap fun nv =>
    if nv = [] then none
    else
      match splitFirst '=' nv with
      | none => none
      | some (n, v) =>
        if v = [] then none else some (unquotePlus n, unquotePlus v)

/-! ### `urlsplit` / `urlparse` and their inverses -/

/-- The valid characters after the first of a URL scheme (`scheme_chars`). -/
def isSchemeChar (c : Char) : Bool :=
  c.isAlpha ∨ c.isDigit ∨ c = '+' ∨ c = '-' ∨ c = '.'

/-- Does the scheme test of `urlsplit` accept the first character
(`url[0].isascii() and url[0].isalpha()`)? -/
def isAsciiAlpha (c : Char) : Bool := c.toNat < 0x80 ∧ c.isAlpha

/-- Delimiters ending the netloc in `_splitnetloc`. -/
def isNetlocDelim (c : Char) : Bool := c = '/' ∨ c = '?' ∨ c = '#'

/-- The C0-control-or-space characters stripped from the front of the URL
(`_WHATWG_C0_CONTROL_OR_SPACE`). -/
def isC0OrSpace (c : Char) : Bool := c.toNat ≤ 0x20

/-- The unsafe bytes removed everywhere (`_UNSAFE_URL_BYTES_TO_REMOVE`:
tab, carriage return, newline). -/
def isUnsafeUrlChar (c : Char) : Bool := c = '\t' ∨ c = '\r' ∨ c = '\n'

/-- The scheme-splitting step of `urlsplit`: if the text before the first `:`
is a non-empty run of scheme characters starting with an ASCII letter, it is
the (lower-cased) scheme; otherwise there is no scheme and the URL is left
whole. -/
def schemeSplit (u : Str) : Str × Str :=
  match splitFirst ':' u with
  | some (pre, rest) =>
    if pre ≠ [] ∧ isAsciiAlpha (pre.headD ' ') ∧ pre.all isSchemeChar then
      (asciiLower pre, rest)
    else ([], u)
  | none => ([], u)

/-- Result of `urlsplit`. -/
structure SplitResult where
  scheme : Str
  netloc : Str
  path : Str
  query : Str
  fragment : Str
deriving DecidableEq

/-- The last two steps of `urlsplit`: split off the fragment at the first
`#` (`if '#' in url: url, fragment = url.split('#', 1)`), then the query at
the first `?` (`if '?' in url: url, query = url.split('?', 1)`); the result
is (path, query, fragment). -/
def fragQuerySplit (w : Str) : Str × Str × Str :=
  match splitFirst '#' w with
  | some (u3, fragment) =>
    match splitFirst '?' u3 with
    | some (path, query) => (path, query, fragment)
    | none => (u3, [], fragment)
  | none =>
    match splitFirst '?' w with
    | some (path, query) => (path, query, [])
    | none => (w, [], [])

/-- Python's `urllib.parse.urlsplit` (default arguments, so
`allow_fragments=True` and empty default scheme), with the
`ValueError("Invalid IPv6 URL")` for a netloc with mismatched brackets
modelled as an error. -/
def urlsplit (url : Str) : Except Str SplitResult :=
  let u0 := (url.dropWhile isC0OrSpace).filter (fun c => !isUnsafeUrlChar c)
  let p1 := schemeSplit u0
  if p1.2.take 2 = ['/', '/'] then
    let netloc := (p1.2.drop 2).takeWhile (fun c => !isNetlocDelim c)
    let u2 := (p1.2.drop 2).dropWhile (fun c => !isNetlocDelim c)
    if (hasChar '[' netloc ∧ ¬hasChar ']' netloc) ∨
        (hasChar ']' netloc ∧ ¬hasChar '[' netloc) then
      .error (str "Invalid IPv6 URL")
    else
      let fq := fragQuerySplit u2
      .ok ⟨p1.1, netloc, fq.1, fq.2.1, fq.2.2⟩
  else
    let fq := fragQuerySplit p1.2
    .ok ⟨p1.1, [], fq.1, fq.2.1, fq.2.2⟩

/-- The schemes for which `urlparse` separates path parameters
(`uses_params`, CPython 3.11). -/
def uses_params : List Str :=
  [[], str "ftp", str "hdl", str "prospero", str "http", str "imap",
    str "https", str "shttp", str "rtsp", str "rtsps", str "rtspu",
    str "sip", str "sips", str "mms", str "sftp", str "tel"]

/-- The schemes for which `urlunsplit` re-introduces a `//` netloc marker
(`uses_netloc`, CPython 3.11). -/
def uses_netloc : List Str :=
  [[], str "ftp", str "http", str "gopher", str "nntp", str "telnet",
    str "imap", str "wais", str "file", str "mms", str "https", str "shttp",
    str "snews", str "prospero", str "rtsp", str "rtsps", str "rtspu",
    str "rsync", str "svn", str "svn+ssh", str "sftp", str "nfs", str "git",
    str "git+ssh", str "ws", str "wss"]

/-- Membership of a string in a list of strings (Python `in`). -/
def memStr (s : Str) (l : List Str) : Bool := l.any (fun t => t = s)

/-- Python's `urllib.parse._splitparams`: split parameters from the last path
segment.  (Its callers only invoke it when the path contains a `;`.) -/
def splitparams (u : Str) : Str × Str :=
  if hasChar '/' u then
    match splitLast '/' u with
    | some (a, b) =>
      match splitFirst ';' b with
      | some (b1, b2) => (a ++ '/' :: b1, b2)
      | none => (u, [])
    | none => (u, [])
  else
    match splitFirst ';' u with
    | some (a, b) => (a, b)
    | none => (u, [])

/-- Result of `urlparse`. -/
structure ParseResult where
  scheme : Str
  netloc : Str
  path : Str
  params : Str
  query : Str
  fragment : Str
deriving DecidableEq

/-- Python's `urllib.parse.urlparse` (default arguments). -/
def urlparse (url : Str) : Except Str ParseResult :=
  match urlsplit url with
  | .error e => .error e
  | .ok sp =>
    if memStr sp.scheme uses_params ∧ hasChar ';' sp.path then
      let pp := splitparams sp.path
      .ok ⟨sp.scheme, sp.netloc, pp.1, pp.2, sp.query, sp.fragment⟩
    else
      .ok ⟨sp.scheme, sp.netloc, sp.path, [], sp.query, sp.fragment⟩

/-- Python's `urllib.parse.urlunsplit` (CPython 3.11: the `//` marker is
restored when there is a netloc, or when the scheme customarily uses one and
the path does not already start with `//`). -/
def urlunsplit (scheme netloc path query fragment : Str) : Str :=
  let u1 :=
    if netloc ≠ [] ∨ (scheme ≠ [] ∧ memStr scheme uses_netloc ∧ path.take 2 ≠ ['/', '/']) then
      '/' :: '/' :: (netloc ++
        (if path ≠ [] ∧ path.headD ' ' ≠ '/' then '/' :: path else path))
    else path
  let u2 := if scheme ≠ [] then scheme ++ ':' :: u1 else u1
  let u3 := if query ≠ [] then u2 ++ '?' :: query else u2
  if fragment ≠ [] then u3 ++ '#' :: fragment else u3

/-- Python's `urllib.parse.urlunparse`. -/
def urlunparse (pr : ParseResult) : Str :=
  urlunsplit pr.scheme pr.netloc
    (if pr.params ≠ [] then pr.path ++ ';' :: pr.params else pr.path)
    pr.query pr.fragment

/-! ### The rule data model

The format of the rules data is the ClearURLs rules file: a mapping from
provider names to providers, each with a required `urlPattern` and optional
`completeProvider`, `exceptions`, `redirections`, `rules`,
`referralMarketing` and `rawRules` fields.  Mapping iteration order (Python
dicts preserve insertion order) is modelled by using association lists.
Patterns are modelled by their matching behaviour, see the file comment. -/

/-- A compiled pattern used in a boolean position (`urlPattern`,
`exceptions`, `rules`, `referralMarketing`): `test s` is true exactly when
`re.match(pattern, s, re.IGNORECASE)` succeeds (a case-insensitive prefix
match). -/
structure BoolPat where
  test : Str → Bool

/-- Outcome of matching one redirection pattern against a URL, capturing the
branching of `clean_url`: no match; a match whose `group(1)` raises
`IndexError` (the pattern has no first group); a match whose `group(1)` is
falsy (`None` or empty); or a match with a non-empty first captured group. -/
inductive RedirOutcome where
  | noMatch
  | indexError
  | emptyGroup
  | target (g : Str)
deriving DecidableEq

/-- A compiled redirection pattern, modelled by the outcome of
`re.match(pattern, s, re.IGNORECASE)` together with its first capture
group. -/
structure RedirPat where
  run : Str → RedirOutcome

/-- A compiled raw rule, modelled by the behaviour of
`re.sub(pattern, "", s)` (case-sensitive, replace every non-overlapping
occurrence with the empty string). -/
structure RawPat where
  sub : Str → Str

/-- One provider of the rules data. -/
structure Provider where
  urlPattern : BoolPat
  completeProvider : Bool
  exceptions : List BoolPat
  redirections : List RedirPat
  rules : List BoolPat
  referralMarketing : List BoolPat
  rawRules : List RawPat

/-- The rules data: the providers in document order. -/
structure Rules where
  providers : List (Str × Provider)

/-- Result of `clean_url`: Python returns either `False` (the URL is
blocked) or the cleaned URL string. -/
inductive CleanResult where
  | blocked
  | url (s : Str)
deriving DecidableEq

/-- The redirection loop of `clean_url` for one provider.  `inl target`
models the `return self.clean_url(unquote(match.group(1)), rules, False)`
taken on the first usable match when `loop` is true; `inr u` is the value of
the `url` variable when the loop falls through (when `loop` is false, a
usable match updates `url` and scanning continues with the remaining
patterns).  A match whose group is absent (`IndexError`) or falsy is
skipped. -/
def redirLoop (loop : Bool) : List RedirPat → Str → Str ⊕ Str
  | [], url => .inr url
  | r :: rs, url =>
    match r.run url with
    | .target g => if loop then .inl (unquote g) else redirLoop loop rs (unquote g)
    | _ => redirLoop loop rs url

/-- First redirection pattern outcome that has a usable (non-empty) first
capture group, if any. -/
def redirFirst : List RedirPat → Str → Option Str
  | [], _ => none
  | r :: rs, url =>
    match r.run url with
    | .target g => some g
    | _ => redirFirst rs url

/-- The query-filtering fold of `clean_url`: for each pattern of
`provider.rules` followed by `provider.referralMarketing`, drop every pair
whose key matches. -/
def applyRules (pats : List BoolPat) (qp : List (Str × Str)) : List (Str × Str) :=
  pats.foldl (fun params rule => params.filter (fun param => !rule.test param.1)) qp

/-- The raw-rules fold of `clean_url`: apply each `re.sub` in order. -/
def applyRawRules (rrs : List RawPat) (url : Str) : Str :=
  rrs.foldl (fun u r => r.sub u) url

/-- The query-parsing, filtering and rebuilding step of `clean_url` for one
provider: parse the URL, filter the query pairs, and reassemble the URL from
the parsed components with the re-encoded remaining pairs as query. -/
def providerQuery (p : Provider) (url : Str) : Except Str Str :=
  match urlparse url with
  | .error e => .error e
  | .ok pu =>
    let qp := applyRules (p.rules ++ p.referralMarketing) (parse_qsl pu.query)
    .ok (urlunparse ⟨pu.scheme, pu.netloc, pu.path, pu.params, urlencode qp, pu.fragment⟩)

/-- Outcome of one pass of `clean_url` over the provider list: blocked
(`return False`), a recursive redirect (`return self.clean_url(..., False)`,
only when `loop` is true), an uncaught parsing error, or the final value of
`url`. -/
inductive PassOutcome where
  | blocked
  | redirect (target : Str)
  | err (e : Str)
  | done (url : Str)
deriving DecidableEq

/-- The provider loop of `clean_url`: skip providers whose `urlPattern` does
not match; return blocked for a matching complete provider; skip a matching
provider with a matching exception; follow redirections; then filter the
query and apply raw rules, and continue with the updated URL. -/
def cleanPass (loop : Bool) : List (Str × Provider) → Str → PassOutcome
  | [], url => .done url
  | (_, p) :: ps, url =>
    if !p.urlPattern.test url then cleanPass loop ps url
    else if p.completeProvider then .blocked
    else if p.exceptions.any (fun exc => exc.test url) then cleanPass loop ps url
    else
      match redirLoop loop p.redirections url with
      | .inl target => .redirect target
      | .inr url1 =>
        match providerQuery p url1 with
        | .error e => .err e
        | .ok url2 => cleanPass loop ps (applyRawRules p.rawRules url2)

/-- `Scrub.clean_url(url, rules, loop)`.  The single level of redirect
recursion (the recursive call always passes `loop=False`, and a pass with
`loop=False` never redirects) is modelled by running a second pass; the
final `.redirect` arm of the inner match is unreachable
(`cleanPass_false_ne_redirect`). -/
def clean_url (url : Str) (rules : Rules) (loop : Bool) : Except Str CleanResult :=
  match cleanPass loop rules.providers url with
  | .blocked => .ok .blocked
  | .done u => .ok (.url u)
  | .err e => .error e
  | .redirect t =>
    match cleanPass false rules.providers t with
    | .blocked => .ok .blocked
    | .done u => .ok (.url u)
    | .err e => .error e
    | .redirect t2 => .ok (.url t2)

/-- The three-way verdict of the specification: `clean_url`'s `False` is
`blocked`, and a returned string is `cleaned` or `unchanged` according to
whether it differs from the input. -/
inductive Verdict where
  | cleaned (s : Str)
  | unchanged (s : Str)
  | blocked
deriving DecidableEq

/-- The evaluation entry point: `clean_url` with `loop=True`, with its result
classified as a `Verdict`. -/
def evaluate (url : Str) (rules : Rules) : Except Str Verdict :=
  match clean_url url rules true with
  | .error e => .error e
  | .ok .blocked => .ok .blocked
  | .ok (.url u) => if u = url then .ok (.unchanged u) else .ok (.cleaned u)

/-! ### Concrete pattern instances for test vectors

These build `BoolPat`/`RedirPat`/`RawPat` values from literal strings; they
model the corresponding literal regular expressions. -/

/-- Case-insensitive prefix test: `re.match` of a literal pattern with
`re.IGNORECASE`. -/
def litTest (pat : String) (s : Str) : Bool :=
  (asciiLower (str pat)).isPrefixOf (asciiLower s)

/-- `BoolPat` of a literal pattern (ASCII case-insensitive prefix match). -/
def BoolPat.lit (pat : String) : BoolPat := ⟨litTest pat⟩

/-- `BoolPat` matching every subject, as the ClearURLs pattern `.*` does. -/
def BoolPat.always : BoolPat := ⟨fun _ => true⟩

/-- `RedirPat` of a pattern of the shape `lit(.+)`: after the
case-insensitive literal prefix, the (greedy, non-empty) remainder is the
first capture group; an empty remainder leaves the group empty. -/
def RedirPat.lit (pat : String) : RedirPat :=
  ⟨fun s =>
    if litTest pat s then
      let g := s.drop (str pat).length
      if g = [] then .emptyGroup else .target g
    else .noMatch⟩

/-- Removal of every non-overlapping occurrence of a non-empty literal
pattern, scanning left to right; fuelled by the subject length to make the
recursion structural. -/
def removeAllFuel (pat : Str) : Nat → Str → Str
  | 0, s => s
  | _ + 1, [] => []
  | fuel + 1, c :: cs =>
    if pat ≠ [] ∧ pat.isPrefixOf (c :: cs) then
      removeAllFuel pat fuel ((c :: cs).drop pat.length)
    else c :: removeAllFuel pat fuel cs

/-- `re.sub(pat, "", s)` for a non-empty literal pattern `pat`. -/
def removeAll (pat : Str) (s : Str) : Str := removeAllFuel pat s.length s

/-- `RawPat` of a non-empty literal pattern (case-sensitive global
removal). -/
def RawPat.lit (pat : String) : RawPat := ⟨removeAll (str pat)⟩

/-! ### Concrete rules data used as test vectors -/

/-- A provider that unwraps `https://a/?u=<target>` redirects. -/
def provRedir : Provider :=
  ⟨BoolPat.lit "https://a/", false, [], [RedirPat.lit "https://a/?u="], [], [], []⟩

/-- A provider that strips `utm`-keyed query parameters from `https://t...`. -/
def provUtm : Provider :=
  ⟨BoolPat.lit "https://t", false, [], [], [BoolPat.lit "utm"], [], []⟩

/-- A redirecting provider followed by a tracking-parameter provider. -/
def rulesRedir : Rules := ⟨[(str "p", provRedir), (str "q", provUtm)]⟩

/-- A provider matching `https://other...` only. -/
def provOther : Provider :=
  ⟨BoolPat.lit "https://other", false, [], [], [], [], []⟩

/-- A complete provider for `https://go.example...` (with an exception list
that matches everything, to exhibit that it is never consulted). -/
def provComplete : Provider :=
  ⟨BoolPat.lit "https://go.example", true, [BoolPat.always], [], [], [], []⟩

/-- A non-matching provider followed by a complete provider. -/
def rulesComplete : Rules := ⟨[(str "n", provOther), (str "c", provComplete)]⟩

/-- A provider whose raw rule removes the literal text `ab`. -/
def provRawAb : Provider :=
  ⟨BoolPat.lit "https://example.com", false, [], [], [], [], [RawPat.lit "ab"]⟩

/-- One provider whose raw rule removes the literal text `ab`. -/
def rulesRawAb : Rules := ⟨[(str "p", provRawAb)]⟩

/-- A provider matching everything, with no cleaning lists at all. -/
def provAlways : Provider := ⟨BoolPat.always, false, [], [], [], [], []⟩

/-- One provider matching everything, with no cleaning lists at all. -/
def rulesAlways : Rules := ⟨[(str "p", provAlways)]⟩

/-- A provider matching everything, with an exception matching
`https://safe...`. -/
def provExc : Provider :=
  ⟨BoolPat.always, false, [BoolPat.lit "https://safe"], [], [], [], []⟩

/-- One provider matching everything, with an exception. -/
def rulesExc : Rules := ⟨[(str "p", provExc)]⟩

/-- A provider whose rules drop the key `a` and whose raw rule then removes
every letter `x`. -/
def provReintroduce : Provider :=
  ⟨BoolPat.lit "https://e", false, [], [], [BoolPat.lit "a"], [], [RawPat.lit "x"]⟩

/-- One provider whose rules drop the key `a` and whose raw rule then removes
every letter `x`. -/
def rulesReintroduce : Rules := ⟨[(str "p", provReintroduce)]⟩

/-- Shape invariants satisfied by the components of a successful `urlsplit`,
sufficient for reassembly by `urlunsplit` to parse back to the same
components (with `path` standing for the path-with-parameters part at the
`urlsplit` level). -/
structure SplitShape (scheme netloc path query fragment : Str) : Prop where
  scheme_ok : scheme = [] ∨ (scheme ≠ [] ∧ isAsciiAlpha (scheme.headD ' ') = true ∧
    scheme.all isSchemeChar = true)
  scheme_low : asciiLower scheme = scheme
  netloc_ok : ∀ c ∈ netloc, isNetlocDelim c = false
  netloc_br : hasChar '[' netloc = hasChar ']' netloc
  path_hash : ¬ '#' ∈ path
  path_q : ¬ '?' ∈ path
  query_hash : ¬ '#' ∈ query
  netloc_clean : ∀ c ∈ netloc, isUnsafeUrlChar c = false
  path_clean : ∀ c ∈ path, isUnsafeUrlChar c = false
  query_clean : ∀ c ∈ query, isUnsafeUrlChar c = false
  frag_clean : ∀ c ∈ fragment, isUnsafeUrlChar c = false
  path_slash : netloc ≠ [] → path = [] ∨ path.headD ' ' = '/'
  path_head : scheme = [] → netloc = [] → path ≠ [] → isC0OrSpace (path.headD ' ') = false
  path_scheme : scheme = [] → ∀ a b, splitFirst ':' path = some (a, b) →
    a = [] ∨ isAsciiAlpha (a.headD ' ') = false ∨ ∃ c ∈ a, isSchemeChar c = false

/-! ## Lemmas about the engine -/

theorem hasChar_iff {c : Char} {s : Str} : hasChar c s = true ↔ c ∈ s := by
  simp [hasChar, List.any_eq_true]

theorem redirLoop_false_inr (rs : List RedirPat) (url : Str) :
    ∃ u, redirLoop false rs url = .inr u := by
  induction rs generalizing url with
  | nil => exact ⟨url, rfl⟩
  | cons r rs ih =>
    simp only [redirLoop]
    cases r.run url with
    | target g => simpa using ih (unquote g)
    | noMatch => exact ih url
    | indexError => exact ih url
    | emptyGroup => exact ih url

theorem redirLoop_true_first {rs : List RedirPat} {url g : Str}
    (h : redirFirst rs url = some g) : redirLoop true rs url = .inl (unquote g) := by
  induction rs generalizing url with
  | nil => simp [redirFirst] at h
  | cons r rs ih =>
    simp only [redirFirst] at h
    simp only [redirLoop]
    cases hr : r.run url with
    | target g2 =>
      rw [hr] at h
      cases h
      rfl
    | noMatch => rw [hr] at h; exact ih h
    | indexError => rw [hr] at h; exact ih h
    | emptyGroup => rw [hr] at h; exact ih h

theorem cleanPass_skip {loop : Bool} {url : Str} {pre ps : List (Str × Provider)}
    (h : ∀ q ∈ pre, q.2.urlPattern.test url = false) :
    cleanPass loop (pre ++ ps) url = cleanPass loop ps url := by
  induction pre with
  | nil => rfl
  | cons q pre ih =>
    obtain ⟨nm, p⟩ := q
    have hq : p.urlPattern.test url = false := h (nm, p) (by simp)
    simp only [List.cons_append, cleanPass, hq]
    exact ih (fun r hr => h r (by simp [hr]))

theorem cleanPass_cons_redirect {loop : Bool} {n url t : Str} {p : Provider}
    {ps : List (Str × Provider)}
    (hmatch : p.urlPattern.test url = true)
    (hcomp : p.completeProvider = false)
    (hexc : ∀ e ∈ p.exceptions, e.test url = false)
    (hred : redirLoop loop p.redirections url = .inl t) :
    cleanPass loop ((n, p) :: ps) url = .redirect t := by
  have hany : p.exceptions.any (fun exc => exc.test url) = false :=
    List.any_eq_false.mpr (by intro e he; simp [hexc e he])
  simp [cleanPass, hmatch, hcomp, hany, hred]

theorem cleanPass_false_no_redirect (ps : List (Str × Provider)) (url t : Str) :
    cleanPass false ps url ≠ .redirect t := by
  induction ps generalizing url with
  | nil => simp [cleanPass]
  | cons q ps ih =>
    obtain ⟨nm, p⟩ := q
    simp only [cleanPass]
    by_cases hm : p.urlPattern.test url
    · simp only [hm, Bool.not_true, Bool.false_eq_true, if_false]
      by_cases hc : p.completeProvider
      · simp [hc]
      · simp only [hc, if_false]
        by_cases he : p.exceptions.any (fun exc => exc.test url)
        · simp [he, ih]
        · simp only [he, if_false]
          obtain ⟨u, hu⟩ := redirLoop_false_inr p.redirections url
          rw [hu]
          cases hq : providerQuery p u with
          | error e => simp [hq]
          | ok u2 => simp only [hq]; exact ih _
    · simp [hm, ih]

theorem clean_url_of_redirect {rules : Rules} {url t : Str}
    (h : cleanPass true rules.providers url = .redirect t) :
    clean_url url rules true = clean_url t rules false := by
  unfold clean_url
  simp only [h]
  cases h2 : cleanPass false rules.providers t with
  | blocked => rfl
  | done u => rfl
  | err e => rfl
  | redirect t2 => exact absurd h2 (cleanPass_false_no_redirect _ _ _)

theorem applyRules_eq_filter (pats : List BoolPat) (qp : List (Str × Str)) :
    applyRules pats qp = qp.filter (fun kv => pats.all (fun r => !r.test kv.1)) := by
  induction pats generalizing qp with
  | nil => simp [applyRules]
  | cons r rs ih =>
    have step : applyRules (r :: rs) qp =
        applyRules rs (qp.filter (fun param => !r.test param.1)) := rfl
    rw [step, ih, List.filter_filter]
    congr 1
    funext kv
    simp [List.all_cons, Bool.and_comm]

theorem applyRules_append (pats1 pats2 : List BoolPat) (qp : List (Str × Str)) :
    applyRules (pats1 ++ pats2) qp = applyRules pats2 (applyRules pats1 qp) := by
  simp [applyRules, List.foldl_append]

theorem applyRules_sublist (pats : List BoolPat) (qp : List (Str × Str)) :
    (applyRules pats qp).Sublist qp := by
  induction pats generalizing qp with
  | nil => simp [applyRules]
  | cons r rs ih =>
    have step : applyRules (r :: rs) qp =
        applyRules rs (qp.filter (fun param => !r.test param.1)) := rfl
    rw [step]
    exact (ih _).trans (List.filter_sublist qp)

/-! ## Claims about the provider pipeline -/

/-- C1: when redirect recursion is still allowed and evaluation reaches a
provider whose `urlPattern` matches (every earlier provider failing its
`urlPattern` test), if the provider is not complete and no exception
matches, then the first redirection pattern that matches with a usable first
capture group makes `clean_url` return exactly the result of evaluating the
percent-decoded captured target against the same rules with recursion
disabled, superseding all remaining providers and this provider's query and
raw rules. -/
theorem redirect_full_shortcircuit (rules : Rules) (pre ps : List (Str × Provider))
    (n url g : Str) (p : Provider)
    (hprov : rules.providers = pre ++ (n, p) :: ps)
    (hpre : ∀ q ∈ pre, q.2.urlPattern.test url = false)
    (hmatch : p.urlPattern.test url = true)
    (hcomp : p.completeProvider = false)
    (hexc : ∀ e ∈ p.exceptions, e.test url = false)
    (hred : redirFirst p.redirections url = some g) :
    clean_url url rules true = clean_url (unquote g) rules false := by
  apply clean_url_of_redirect
  rw [hprov, cleanPass_skip hpre]
  exact cleanPass_cons_redirect hmatch hcomp hexc (redirLoop_true_first hred)

/-- Witness for C1 at a concrete redirecting ruleset. -/
theorem redirect_full_shortcircuit_witness :
    clean_url (str "https://a/?u=https%3A%2F%2Ft%2Fx%3Futm_s%3D1%26id%3D2") rulesRedir true =
      clean_url (unquote (str "https%3A%2F%2Ft%2Fx%3Futm_s%3D1%26id%3D2")) rulesRedir false :=
  redirect_full_shortcircuit rulesRedir [] _ _ _ _ _ rfl (by simp) rfl rfl
    (by intro e he; simp [provRedir] at he) rfl

/-- C2: if evaluation reaches a provider whose `urlPattern` matches and whose
`completeProvider` flag is true, the pass is immediately blocked (regardless
of the provider's exception, redirection, rule and raw-rule lists, which are
not consulted), and the whole `clean_url` call returns blocked when the
earlier providers all fail their `urlPattern` test. -/
theorem complete_provider_blocks (loop : Bool) (rules : Rules)
    (pre ps : List (Str × Provider)) (n url : Str) (p : Provider)
    (hprov : rules.providers = pre ++ (n, p) :: ps)
    (hpre : ∀ q ∈ pre, q.2.urlPattern.test url = false)
    (hmatch : p.urlPattern.test url = true)
    (hcomp : p.completeProvider = true) :
    cleanPass loop ((n, p) :: ps) url = .blocked ∧
      clean_url url rules loop = .ok .blocked := by
  have h1 : cleanPass loop ((n, p) :: ps) url = .blocked := by
    simp [cleanPass, hmatch, hcomp]
  refine ⟨h1, ?_⟩
  unfold clean_url
  rw [hprov, cleanPass_skip hpre, h1]

/-- Witness for C2 at a concrete ruleset with a complete provider. -/
theorem complete_provider_blocks_witness :
    cleanPass true [(str "c", provComplete)] (str "https://go.example/x") = .blocked ∧
      clean_url (str "https://go.example/x") rulesComplete true = .ok .blocked :=
  complete_provider_blocks true rulesComplete [(str "n", provOther)] [] _ _ _ rfl
    (by intro q hq; simp at hq; rw [hq]; rfl) rfl rfl

/-- C3: within a matching provider's query-cleaning step, the query is
decomposed by `parse_qsl` into an ordered list of pairs, and the fold of the
provider's `rules` followed by `referralMarketing` keeps exactly the pairs
whose key matches none of the combined patterns, in their original relative
order (`List.filter` preserves order and duplicates). -/
theorem query_filter_exact (p : Provider) (q : Str) :
    applyRules (p.rules ++ p.referralMarketing) (parse_qsl q) =
      (parse_qsl q).filter
        (fun kv => (p.rules ++ p.referralMarketing).all (fun r => !r.test kv.1)) :=
  applyRules_eq_filter _ _

/-- C7 (amended): with recursion disabled, a redirection pattern matching
with a usable group does not recurse: the working URL becomes the
percent-decoded target and the provider's remaining redirection patterns are
scanned against the updated value. -/
theorem redir_no_recursion_continues (r : RedirPat) (rs : List RedirPat) (url g : Str)
    (h : r.run url = .target g) :
    redirLoop false (r :: rs) url = redirLoop false rs (unquote g) := by
  simp [redirLoop, h]

/-- Witness for the amended C7 at a concrete redirection chain. -/
theorem redir_no_recursion_continues_witness :
    redirLoop false [RedirPat.lit "https://a/?u=", RedirPat.lit "https://b/?u="]
        (str "https://a/?u=https://b/?u=https://c") =
      redirLoop false [RedirPat.lit "https://b/?u="]
        (unquote (str "https://b/?u=https://c")) :=
  redir_no_recursion_continues _ _ _ _ rfl

/-- Counterexample to C7 as stated: with recursion disabled, after the first
redirection pattern matches (with captured target `https://b/?u=https://c`),
evaluation does not proceed directly to query parsing with that target: the
provider's second redirection pattern is applied to the updated URL, so the
redirection loop does not end with the first target. -/
theorem redir_no_recursion_counterexample :
    (RedirPat.lit "https://a/?u=").run (str "https://a/?u=https://b/?u=https://c") =
      .target (str "https://b/?u=https://c") ∧
    redirLoop false [RedirPat.lit "https://a/?u=", RedirPat.lit "https://b/?u="]
        (str "https://a/?u=https://b/?u=https://c") ≠
      .inr (unquote (str "https://b/?u=https://c")) :=
  ⟨rfl, by decide⟩

/-- C8 (amended): within the query-filtering fold, removal is monotone: the
pairs kept after any further patterns form a sublist of the pairs kept
before them, so no later pattern of the fold reintroduces a removed pair. -/
theorem query_removal_monotone (pats1 pats2 : List BoolPat) (qp : List (Str × Str)) :
    (applyRules (pats1 ++ pats2) qp).Sublist (applyRules pats1 qp) := by
  rw [applyRules_append]
  exact applyRules_sublist _ _

/-- Counterexample to C8 as stated: the provider's rules remove the pair
with key `a`, but its raw rule (removing the letter `x`) recreates a pair
with key `a` in the final result's query. -/
theorem query_removal_counterexample :
    (str "a", str "1") ∈ parse_qsl (str "a=1&xa=2") ∧
    applyRules [BoolPat.lit "a"] (parse_qsl (str "a=1&xa=2")) = [(str "xa", str "2")] ∧
    clean_url (str "https://e/?a=1&xa=2") rulesReintroduce true =
      .ok (.url (str "https://e/?a=2")) ∧
    urlparse (str "https://e/?a=2") =
      .ok ⟨str "https", str "e", str "/", [], str "a=2", []⟩ ∧
    (str "a", str "2") ∈ parse_qsl (str "a=2") :=
  ⟨by decide, by decide, rfl, rfl, by decide⟩

/-- C9: a provider whose `urlPattern` matches but one of whose exceptions
also matches is skipped entirely: the pass continues with the next provider
and the same URL. -/
theorem exception_skips_provider (loop : Bool) (n url : Str) (p : Provider)
    (ps : List (Str × Provider))
    (hmatch : p.urlPattern.test url = true)
    (hcomp : p.completeProvider = false)
    (hexc : ∃ e ∈ p.exceptions, e.test url = true) :
    cleanPass loop ((n, p) :: ps) url = cleanPass loop ps url := by
  have hany : p.exceptions.any (fun exc => exc.test url) = true :=
    List.any_eq_true.mpr (by obtain ⟨e, he, ht⟩ := hexc; exact ⟨e, he, ht⟩)
  simp [cleanPass, hmatch, hcomp, hany]

/-- Witness for C9 at a concrete ruleset with a matching exception. -/
theorem exception_skips_provider_witness :
    cleanPass true [(str "p", provExc)] (str "https://safe/x?id=1") =
      cleanPass true [] (str "https://safe/x?id=1") :=
  exception_skips_provider true (str "p") (str "https://safe/x?id=1") provExc []
    rfl rfl ⟨BoolPat.lit "https://safe", by simp [provExc], rfl⟩

/-! ## Error propagation and fixed points -/

theorem cleanPass_all_skip {loop : Bool} {ps : List (Str × Provider)} {url : Str}
    (h : ∀ q ∈ ps, q.2.urlPattern.test url = false) :
    cleanPass loop ps url = .done url := by
  have h2 := @cleanPass_skip loop url ps [] h
  rwa [List.append_nil] at h2

theorem clean_url_nomatch {rules : Rules} {url : Str} {loop : Bool}
    (h : ∀ q ∈ rules.providers, q.2.urlPattern.test url = false) :
    clean_url url rules loop = .ok (.url url) := by
  unfold clean_url
  rw [cleanPass_all_skip h]

theorem urlsplit_error {u e : Str} (h : urlsplit u = .error e) :
    e = str "Invalid IPv6 URL" := by
  simp only [urlsplit] at h
  repeat' split at h
  all_goals simp_all

theorem urlparse_error {u e : Str} (h : urlparse u = .error e) :
    e = str "Invalid IPv6 URL" := by
  unfold urlparse at h
  split at h
  · next e2 heq =>
    injection h with h2
    exact h2 ▸ urlsplit_error heq
  · split at h <;> simp at h

theorem providerQuery_error {p : Provider} {url e : Str}
    (h : providerQuery p url = .error e) : e = str "Invalid IPv6 URL" := by
  unfold providerQuery at h
  split at h
  · next e2 heq =>
    injection h with h2
    exact h2 ▸ urlparse_error heq
  · simp at h

theorem cleanPass_err {loop : Bool} {ps : List (Str × Provider)} {url e : Str}
    (h : cleanPass loop ps url = .err e) : e = str "Invalid IPv6 URL" := by
  induction ps generalizing url with
  | nil => simp [cleanPass] at h
  | cons q ps ih =>
    obtain ⟨nm, p⟩ := q
    simp only [cleanPass] at h
    split at h
    · exact ih h
    · split at h
      · simp at h
      · split at h
        · exact ih h
        · split at h
          · simp at h
          · split at h
            · next e2 heq =>
              injection h with h2
              exact h2 ▸ providerQuery_error heq
            · exact ih h

theorem clean_url_error {url : Str} {rules : Rules} {loop : Bool} {e : Str}
    (h : clean_url url rules loop = .error e) : e = str "Invalid IPv6 URL" := by
  unfold clean_url at h
  split at h
  · simp at h
  · simp at h
  · next heq =>
    injection h with h2
    exact h2 ▸ cleanPass_err heq
  · split at h
    · simp at h
    · simp at h
    · next heq =>
      injection h with h2
      exact h2 ▸ cleanPass_err heq
    · simp at h

/-- C4 (amended): re-evaluating a blocked URL again yields blocked because
`clean_url` is a pure function of its arguments; and a produced string `c`
is a fixed point of re-evaluation whenever no provider's `urlPattern`
matches `c`.  In general, however, the cleaned output is not a fixed point
(see the counterexample: a raw rule can remove further text on a second
pass). -/
theorem clean_eval_fixed_point_no_match (rules : Rules) (u c : Str) (loop : Bool)
    (_hcleaned : clean_url u rules true = .ok (.url c))
    (hnomatch : ∀ q ∈ rules.providers, q.2.urlPattern.test c = false) :
    clean_url c rules loop = .ok (.url c) :=
  clean_url_nomatch hnomatch

/-- Witness for the amended C4 at a concrete input no provider matches. -/
theorem clean_eval_fixed_point_no_match_witness :
    clean_url (str "https://other/x") rulesRawAb true = .ok (.url (str "https://other/x")) ∧
      clean_url (str "https://other/x") rulesRawAb true = .ok (.url (str "https://other/x")) :=
  ⟨rfl, clean_eval_fixed_point_no_match rulesRawAb (str "https://other/x")
    (str "https://other/x") true rfl (by decide)⟩

/-- Counterexample to C4 as stated: cleaning `https://example.com/aabb` with
a raw rule removing `ab` yields `https://example.com/ab`, and evaluating
that output again yields `https://example.com/`, a different string, so
evaluation is not idempotent. -/
theorem clean_eval_not_idempotent :
    clean_url (str "https://example.com/aabb") rulesRawAb true =
      .ok (.url (str "https://example.com/ab")) ∧
    clean_url (str "https://example.com/ab") rulesRawAb true =
      .ok (.url (str "https://example.com/")) ∧
    str "https://example.com/" ≠ str "https://example.com/ab" :=
  ⟨rfl, rfl, by decide⟩

/-- C5 (amended): the only fatal error of evaluation is the
`ValueError("Invalid IPv6 URL")` raised by URL parsing on a netloc with
mismatched brackets; in particular a redirection pattern that matches
without the expected capture group (`IndexError`) is skipped and evaluation
continues with the remaining patterns. -/
theorem evaluation_error_only_ipv6 (url : Str) (rules : Rules) (loop : Bool) (e : Str)
    (herr : clean_url url rules loop = .error e) :
    e = str "Invalid IPv6 URL" ∧
      ∀ (r : RedirPat) (rs : List RedirPat) (u : Str),
        r.run u = .indexError → redirLoop loop (r :: rs) u = redirLoop loop rs u := by
  refine ⟨clean_url_error herr, ?_⟩
  intro r rs u hr
  simp [redirLoop, hr]

/-- Witness for the amended C5 at a concrete erroring input. -/
theorem evaluation_error_only_ipv6_witness :
    clean_url (str "https://[::1/x") rulesAlways true = .error (str "Invalid IPv6 URL") ∧
      (str "Invalid IPv6 URL" = str "Invalid IPv6 URL" ∧
        ∀ (r : RedirPat) (rs : List RedirPat) (u : Str),
          r.run u = .indexError → redirLoop true (r :: rs) u = redirLoop true rs u) :=
  ⟨rfl, evaluation_error_only_ipv6 (str "https://[::1/x") rulesAlways true
    (str "Invalid IPv6 URL") rfl⟩

/-- Counterexample to C5 as stated: on a URL whose netloc has an unmatched
bracket, the parsing step of a matching provider raises
`ValueError("Invalid IPv6 URL")`, which propagates out of `clean_url`:
evaluation does not complete with a verdict. -/
theorem evaluation_error_counterexample :
    clean_url (str "https://[::1/x") rulesAlways true = .error (str "Invalid IPv6 URL") := rfl

/-- C6 (amended): a matching, non-complete provider all of whose pattern
lists are empty contributes exactly the parse/re-encode normalisation of the
pipeline; it passes the URL through unchanged if (and in general only if)
re-parsing and re-encoding reproduce the URL verbatim. -/
theorem empty_provider_normalizes (loop : Bool) (n url : Str) (p : Provider)
    (ps : List (Str × Provider))
    (hmatch : p.urlPattern.test url = true)
    (hcomp : p.completeProvider = false)
    (hexc : p.exceptions = []) (hred : p.redirections = [])
    (hraw : p.rawRules = [])
    (hnorm : providerQuery p url = .ok url) :
    cleanPass loop ((n, p) :: ps) url = cleanPass loop ps url := by
  simp [cleanPass, hmatch, hcomp, hexc, hred, hnorm, hraw, redirLoop, applyRawRules]

/-- Witness for the amended C6 at a URL in normal form. -/
theorem empty_provider_normalizes_witness :
    cleanPass true [(str "p", provAlways)] (str "https://e/?a=1") =
      cleanPass true [] (str "https://e/?a=1") :=
  empty_provider_normalizes true (str "p") (str "https://e/?a=1") provAlways []
    rfl rfl rfl rfl rfl rfl

/-- Counterexample to C6 as stated: a matching provider with all pattern
lists empty is not a no-op: on `https://e/?a` the pipeline's re-encoding
drops the valueless query (and in general also lower-cases the scheme and
re-encodes percent-escapes), so the URL leaving the provider differs from
the URL entering it. -/
theorem empty_provider_not_noop :
    clean_url (str "https://e/?a") rulesAlways true = .ok (.url (str "https://e/")) ∧
      str "https://e/" ≠ str "https://e/?a" :=
  ⟨rfl, by decide⟩

/-! ## Toolkit for the parse/rebuild round trip -/

theorem uintLe_iff {a b : UInt32} : a ≤ b ↔ a.toNat ≤ b.toNat :=
  ⟨fun h => h, fun h => h⟩

theorem charLe_iff {c d : Char} : (c ≤ d) ↔ c.toNat ≤ d.toNat := by
  rw [Char.le_def]; exact ⟨fun h => h, fun h => h⟩

theorem charToNat_ofNat {n : Nat} (h : n.isValidChar) : (Char.ofNat n).toNat = n := by
  simp only [Char.ofNat, h, dite_true]
  rfl

theorem char_toNat_lt (c : Char) : c.toNat < 0x110000 := by
  rcases c.valid with h | ⟨_, h2⟩
  · exact Nat.lt_trans h (by norm_num)
  · exact h2

theorem splitFirst_append {sep : Char} {a : Str} (t : Str) (ha : ¬ sep ∈ a) :
    splitFirst sep (a ++ t) = (splitFirst sep t).map (fun p => (a ++ p.1, p.2)) := by
  induction a with
  | nil =>
    simp only [List.nil_append]
    cases splitFirst sep t <;> simp
  | cons c cs ih =>
    have hc : c ≠ sep := by intro h; exact ha (h ▸ List.mem_cons_self c cs)
    have ha2 : ¬ sep ∈ cs := fun h => ha (List.mem_cons_of_mem c h)
    simp only [List.cons_append, splitFirst, hc, if_false, List.append_eq]
    rw [ih ha2]
    cases splitFirst sep t <;> simp

theorem splitFirst_sep {sep : Char} {a : Str} (t : Str) (ha : ¬ sep ∈ a) :
    splitFirst sep (a ++ sep :: t) = some (a, t) := by
  rw [splitFirst_append _ ha]
  simp [splitFirst]

theorem splitFirst_none {sep : Char} {s : Str} (h : ¬ sep ∈ s) :
    splitFirst sep s = none := by
  have := @splitFirst_append sep s [] h
  simpa [splitFirst] using this

theorem splitFirst_eq_some {sep : Char} {s a b : Str}
    (h : splitFirst sep s = some (a, b)) : s = a ++ sep :: b ∧ ¬ sep ∈ a := by
  induction s generalizing a with
  | nil => simp [splitFirst] at h
  | cons c cs ih =>
    simp only [splitFirst] at h
    by_cases hc : c = sep
    · rw [if_pos hc] at h
      obtain ⟨h1, h2⟩ := Option.some.injEq _ _ ▸ h
      cases h
      simp [hc]
    · rw [if_neg hc] at h
      cases hs : splitFirst sep cs with
      | none => rw [hs] at h; simp at h
      | some p =>
        rw [hs] at h
        obtain ⟨a2, b2⟩ := p
        simp only [Option.map_some', Option.some_inj] at h
        obtain ⟨rfl, rfl⟩ : a = c :: a2 ∧ b = b2 := by
          constructor
          · exact (congrArg Prod.fst h).symm
          · exact (congrArg Prod.snd h).symm
        obtain ⟨hcs, hmem⟩ := ih hs
        constructor
        · simp [hcs]
        · intro hm
          rcases List.mem_cons.mp hm with h1 | h1
          · exact hc h1.symm
          · exact hmem h1

theorem splitFirst_eq_none {sep : Char} {s : Str} (h : splitFirst sep s = none) :
    ¬ sep ∈ s := by
  induction s with
  | nil => simp
  | cons c cs ih =>
    simp only [splitFirst] at h
    by_cases hc : c = sep
    · simp [hc] at h
    · rw [if_neg hc] at h
      cases hs : splitFirst sep cs with
      | none =>
        intro hm
        rcases List.mem_cons.mp hm with h1 | h1
        · exact hc h1.symm
        · exact ih hs h1
      | some p => rw [hs] at h; simp at h

theorem splitLast_sep {sep : Char} {t : Str} (a : Str) (ht : ¬ sep ∈ t) :
    splitLast sep (a ++ sep :: t) = some (a, t) := by
  unfold splitLast
  have : (a ++ sep :: t).reverse = t.reverse ++ sep :: a.reverse := by
    simp
  rw [this, splitFirst_sep _ (by simpa using ht)]
  simp

theorem splitLast_eq_some {sep : Char} {s a b : Str}
    (h : splitLast sep s = some (a, b)) : s = a ++ sep :: b ∧ ¬ sep ∈ b := by
  unfold splitLast at h
  cases hs : splitFirst sep s.reverse with
  | none => rw [hs] at h; simp at h
  | some p =>
    rw [hs] at h
    obtain ⟨x, y⟩ := p
    simp only [Option.map_some', Option.some_inj] at h
    obtain ⟨rfl, rfl⟩ : a = y.reverse ∧ b = x.reverse := by
      constructor
      · exact (congrArg Prod.fst h).symm
      · exact (congrArg Prod.snd h).symm
    obtain ⟨h1, h2⟩ := splitFirst_eq_some hs
    constructor
    · have := congrArg List.reverse h1
      simpa using this
    · simpa using h2

theorem splitLast_isSome {sep : Char} {s : Str} (h : sep ∈ s) :
    ∃ a b, splitLast sep s = some (a, b) := by
  unfold splitLast
  cases hs : splitFirst sep s.reverse with
  | none => exact absurd (List.mem_reverse.mpr h) (splitFirst_eq_none hs)
  | some p => exact ⟨p.2.reverse, p.1.reverse, rfl⟩

theorem takeWhile_append_all {p : Char → Bool} {a : Str} (b : Str)
    (h : ∀ x ∈ a, p x = true) :
    (a ++ b).takeWhile p = a ++ b.takeWhile p := by
  induction a with
  | nil => simp
  | cons c cs ih =>
    have hc : p c = true := h c (List.mem_cons_self c cs)
    simp only [List.cons_append, List.takeWhile_cons, hc, if_true]
    rw [ih (fun x hx => h x (List.mem_cons_of_mem c hx))]

theorem dropWhile_append_all {p : Char → Bool} {a : Str} (b : Str)
    (h : ∀ x ∈ a, p x = true) :
    (a ++ b).dropWhile p = b.dropWhile p := by
  induction a with
  | nil => simp
  | cons c cs ih =>
    have hc : p c = true := h c (List.mem_cons_self c cs)
    simp only [List.cons_append, List.dropWhile_cons, hc, if_true]
    exact ih (fun x hx => h x (List.mem_cons_of_mem c hx))

theorem takeWhile_head_false {p : Char → Bool} {b : Str}
    (h : b = [] ∨ p (b.headD ' ') = false) : b.takeWhile p = [] := by
  rcases h with rfl | h
  · rfl
  · cases b with
    | nil => rfl
    | cons c cs => simp only [List.headD_cons] at h; simp [List.takeWhile_cons, h]

theorem dropWhile_head_false {p : Char → Bool} {b : Str}
    (h : b = [] ∨ p (b.headD ' ') = false) : b.dropWhile p = b := by
  rcases h with rfl | h
  · rfl
  · cases b with
    | nil => rfl
    | cons c cs => simp only [List.headD_cons] at h; simp [List.dropWhile_cons, h]

theorem asciiLowerChar_idem (c : Char) : asciiLowerChar (asciiLowerChar c) = asciiLowerChar c := by
  unfold asciiLowerChar
  split
  · next h =>
    obtain ⟨h1, h2⟩ := h
    have hb : (c.toNat + 32).isValidChar := by
      left
      have := charLe_iff.mp h2
      simp [Char.toNat, UInt32.size] at this ⊢
      omega
    have ht : (Char.ofNat (c.toNat + 32)).toNat = c.toNat + 32 := charToNat_ofNat hb
    rw [if_neg]
    intro hg
    have hg2 := charLe_iff.mp hg.2
    rw [ht] at hg2
    have hg1 := charLe_iff.mp h1
    simp [Char.toNat, UInt32.size] at hg1 hg2
    omega
  · rfl

theorem asciiLower_idem (s : Str) : asciiLower (asciiLower s) = asciiLower s := by
  unfold asciiLower
  rw [List.map_map]
  exact List.map_congr_left (fun c _ => asciiLowerChar_idem c)

theorem isAsciiAlpha_not_c0 {c : Char} (h : isAsciiAlpha c = true) :
    isC0OrSpace c = false := by
  simp only [isAsciiAlpha, Bool.and_eq_true, decide_eq_true_eq] at h
  obtain ⟨-, h2⟩ := h
  simp only [Char.isAlpha, Char.isUpper, Char.isLower, Bool.or_eq_true, Bool.and_eq_true,
    decide_eq_true_eq] at h2
  simp only [isC0OrSpace, decide_eq_false_iff_not, not_le]
  rcases h2 with ⟨h3, -⟩ | ⟨h3, -⟩ <;>
    [have h4 := uintLe_iff.mp h3; have h4 := uintLe_iff.mp h3] <;>
    simp [Char.toNat, UInt32.size] at h4 ⊢ <;> omega

theorem isSchemeChar_props {c : Char} (h : isSchemeChar c = true) :
    c ≠ ':' ∧ isUnsafeUrlChar c = false := by
  simp only [isSchemeChar, Bool.or_eq_true, decide_eq_true_eq] at h
  constructor
  · rintro rfl
    rcases h with ((h | h) | h) | h | h <;> simp_all
  · by_cases h1 : c = '\t'
    · subst h1; rcases h with ((h | h) | h) | h | h <;> simp_all
    · by_cases h2 : c = '\r'
      · subst h2; rcases h with ((h | h) | h) | h | h <;> simp_all
      · by_cases h3 : c = '\n'
        · subst h3; rcases h with ((h | h) | h) | h | h <;> simp_all
        · simp [isUnsafeUrlChar, h1, h2, h3]

theorem isAlwaysSafe_props {c : Char} (h : isAlwaysSafe c = true) :
    c ≠ '#' ∧ c ≠ '?' ∧ c ≠ '&' ∧ c ≠ '=' ∧ isUnsafeUrlChar c = false := by
  simp only [isAlwaysSafe, Bool.or_eq_true, decide_eq_true_eq] at h
  refine ⟨?_, ?_, ?_, ?_, ?_⟩
  · rintro rfl; rcases h with ((((h | h) | h) | h) | h) | h <;> simp_all
  · rintro rfl; rcases h with ((((h | h) | h) | h) | h) | h <;> simp_all
  · rintro rfl; rcases h with ((((h | h) | h) | h) | h) | h <;> simp_all
  · rintro rfl; rcases h with ((((h | h) | h) | h) | h) | h <;> simp_all
  · by_cases h1 : c = '\t'
    · subst h1; rcases h with ((((h | h) | h) | h) | h) | h <;> simp_all
    · by_cases h2 : c = '\r'
      · subst h2; rcases h with ((((h | h) | h) | h) | h) | h <;> simp_all
      · by_cases h3 : c = '\n'
        · subst h3; rcases h with ((((h | h) | h) | h) | h) | h <;> simp_all
        · simp [isUnsafeUrlChar, h1, h2, h3]

theorem utf8Bytes_lt {c : Char} {b : Nat} (h : b ∈ utf8Bytes c) : b < 256 := by
  have hc := char_toNat_lt c
  simp only [utf8Bytes] at h
  split at h
  · next h1 => simp at h; omega
  · split at h
    · next h1 h2 =>
      simp at h
      rcases h with rfl | rfl <;> omega
    · split at h
      · next h1 h2 h3 =>
        simp at h
        have := Nat.mod_lt (c.toNat / 0x40) (show 0 < 0x40 by norm_num)
        rcases h with rfl | rfl | rfl <;> omega
      · next h1 h2 h3 =>
        simp at h
        have q1 := Nat.mod_lt (c.toNat / 0x1000) (show 0 < 0x40 by norm_num)
        have q2 := Nat.mod_lt (c.toNat / 0x40) (show 0 < 0x40 by norm_num)
        have q3 : c.toNat / 0x40000 < 5 := by omega
        rcases h with rfl | rfl | rfl | rfl <;> omega

theorem hexDigitU_safe : ∀ n < 16, isAlwaysSafe (hexDigitU n) = true := by decide

theorem pctEncByte_chars {b : Nat} {c : Char} (hb : b < 256) (h : c ∈ pctEncByte b) :
    isAlwaysSafe c = true ∨ c = '%' := by
  unfold pctEncByte at h
  simp at h
  rcases h with rfl | rfl | rfl
  · right; rfl
  · left; exact hexDigitU_safe _ (by omega)
  · left; exact hexDigitU_safe _ (Nat.mod_lt b (by norm_num))

theorem quotePlusChar_chars {c d : Char} (h : d ∈ quotePlusChar c) :
    isAlwaysSafe d = true ∨ d = '+' ∨ d = '%' := by
  unfold quotePlusChar at h
  split at h
  · next hs =>
    simp at h
    subst h
    exact Or.inl hs
  · split at h
    · simp at h
      subst h
      exact Or.inr (Or.inl rfl)
    · simp only [List.mem_flatten, List.mem_map] at h
      obtain ⟨l, ⟨b, hb, rfl⟩, hd⟩ := h
      rcases pctEncByte_chars (utf8Bytes_lt hb) hd with h | h
      · exact Or.inl h
      · exact Or.inr (Or.inr h)

theorem quotePlus_chars {s : Str} {d : Char} (h : d ∈ quotePlus s) :
    isAlwaysSafe d = true ∨ d = '+' ∨ d = '%' := by
  unfold quotePlus at h
  simp only [List.mem_flatten, List.mem_map] at h
  obtain ⟨l, ⟨c, hc, rfl⟩, hd⟩ := h
  exact quotePlusChar_chars hd

theorem urlencode_chars {qp : List (Str × Str)} {d : Char} (h : d ∈ urlencode qp) :
    isAlwaysSafe d = true ∨ d = '+' ∨ d = '%' ∨ d = '=' ∨ d = '&' := by
  unfold urlencode at h
  induction qp with
  | nil => simp [List.intercalate] at h
  | cons kv l ih =>
    cases l with
    | nil =>
      simp only [List.map_cons, List.map_nil, List.intercalate, List.intersperse,
        List.flatten] at h
      simp only [List.append_nil, List.mem_append, List.mem_cons, List.not_mem_nil,
        or_false] at h
      rcases h with h | h | h
      · rcases quotePlus_chars h with h2 | h2 | h2 <;> simp [h2]
      · subst h; right; right; right; left; rfl
      · rcases quotePlus_chars h with h2 | h2 | h2 <;> simp [h2]
    | cons kv2 l2 =>
      rw [show List.intercalate ['&']
          ((kv :: kv2 :: l2).map (fun kv => quotePlus kv.1 ++ '=' :: quotePlus kv.2)) =
          (quotePlus kv.1 ++ '=' :: quotePlus kv.2) ++ '&' ::
            List.intercalate ['&']
              ((kv2 :: l2).map (fun kv => quotePlus kv.1 ++ '=' :: quotePlus kv.2))
        from by simp [List.intercalate, List.intersperse]] at h
      simp only [List.mem_append, List.mem_cons] at h
      rcases h with (h | h | h) | h | h
      · rcases quotePlus_chars h with h2 | h2 | h2 <;> simp [h2]
      · subst h; right; right; right; left; rfl
      · rcases quotePlus_chars h with h2 | h2 | h2 <;> simp [h2]
      · subst h; right; right; right; right; rfl
      · exact ih h

theorem urlencode_no_hash (qp : List (Str × Str)) : ¬ '#' ∈ urlencode qp := by
  intro h
  rcases urlencode_chars h with h2 | h2 | h2 | h2 | h2
  · exact absurd rfl (isAlwaysSafe_props h2).1
  all_goals simp at h2

theorem urlencode_clean (qp : List (Str × Str)) :
    ∀ c ∈ urlencode qp, isUnsafeUrlChar c = false := by
  intro c h
  rcases urlencode_chars h with h2 | h2 | h2 | h2 | h2
  · exact (isAlwaysSafe_props h2).2.2.2.2
  all_goals subst h2; rfl

theorem hasChar_false {c : Char} {s : Str} (h : ¬ c ∈ s) : hasChar c s = false := by
  cases hc : hasChar c s
  · rfl
  · exact absurd (hasChar_iff.mp hc) h

theorem splitparams_resplit {w a b : Str} (h : splitparams w = (a, b)) (hb : b ≠ []) :
    splitparams (a ++ ';' :: b) = (a, b) := by
  unfold splitparams at h
  by_cases hs : hasChar '/' w
  · rw [if_pos hs] at h
    rcases splitLast_isSome (hasChar_iff.mp hs) with ⟨w1, w2, hl⟩
    simp only [hl] at h
    cases hf : splitFirst ';' w2 with
    | none =>
      simp only [hf] at h
      exact absurd (congrArg Prod.snd h).symm hb
    | some q =>
      obtain ⟨s1, s2⟩ := q
      simp only [hf] at h
      have ha : a = w1 ++ '/' :: s1 := (congrArg Prod.fst h).symm
      have hbb : b = s2 := (congrArg Prod.snd h).symm
      subst ha; subst hbb
      obtain ⟨hw, hw2s⟩ := splitLast_eq_some hl
      obtain ⟨hw2, hs1s⟩ := splitFirst_eq_some hf
      have hsl1 : ¬ '/' ∈ s1 := fun hc => hw2s (hw2 ▸ List.mem_append_left _ hc)
      have hsl2 : ¬ '/' ∈ b := fun hc => hw2s (hw2 ▸ List.mem_append_right _ (List.mem_cons_of_mem _ hc))
      have hassoc : (w1 ++ '/' :: s1) ++ ';' :: b = w1 ++ '/' :: (s1 ++ ';' :: b) := by
        simp
      have hmem : hasChar '/' ((w1 ++ '/' :: s1) ++ ';' :: b) = true :=
        hasChar_iff.mpr (List.mem_append_left _ (List.mem_append_right _ (List.mem_cons_self _ _)))
      have hnl : ¬ '/' ∈ s1 ++ ';' :: b := by
        intro hc
        rcases List.mem_append.mp hc with hc | hc
        · exact hsl1 hc
        · rcases List.mem_cons.mp hc with hc | hc
          · simp at hc
          · exact hsl2 hc
      unfold splitparams
      rw [if_pos hmem, hassoc, splitLast_sep _ hnl]
      simp only [splitFirst_sep _ hs1s]
  · rw [if_neg hs] at h
    cases hf : splitFirst ';' w with
    | none =>
      simp only [hf] at h
      exact absurd (congrArg Prod.snd h).symm hb
    | some q =>
      obtain ⟨a0, b0⟩ := q
      simp only [hf] at h
      have ha : a = a0 := (congrArg Prod.fst h).symm
      have hbb : b = b0 := (congrArg Prod.snd h).symm
      subst ha; subst hbb
      obtain ⟨hw, has⟩ := splitFirst_eq_some hf
      have hnsl : ¬ '/' ∈ w := fun hc => hs (hasChar_iff.mpr hc)
      have h1 : ¬ '/' ∈ a := fun hc => hnsl (hw ▸ List.mem_append_left _ hc)
      have h2 : ¬ '/' ∈ b := fun hc => hnsl (hw ▸ List.mem_append_right _ (List.mem_cons_of_mem _ hc))
      have hno : ¬ '/' ∈ a ++ ';' :: b := by
        intro hc
        rcases List.mem_append.mp hc with hc | hc
        · exact h1 hc
        · rcases List.mem_cons.mp hc with hc | hc
          · simp at hc
          · exact h2 hc
      unfold splitparams
      rw [if_neg (by rw [hasChar_false hno]; simp), splitFirst_sep _ has]

theorem splitparams_keep {w a : Str} (h : splitparams w = (a, []))
    (ha : hasChar ';' a = true) : splitparams a = (a, []) := by
  unfold splitparams at h
  by_cases hs : hasChar '/' w
  · rw [if_pos hs] at h
    rcases splitLast_isSome (hasChar_iff.mp hs) with ⟨w1, w2, hl⟩
    simp only [hl] at h
    cases hf : splitFirst ';' w2 with
    | none =>
      simp only [hf] at h
      have haw : a = w := (congrArg Prod.fst h).symm
      subst haw
      unfold splitparams
      rw [if_pos hs, hl]
      simp only [hf]
    | some q =>
      obtain ⟨s1, s2⟩ := q
      simp only [hf] at h
      have haw : a = w1 ++ '/' :: s1 := (congrArg Prod.fst h).symm
      subst haw
      obtain ⟨hw, hw2s⟩ := splitLast_eq_some hl
      obtain ⟨hw2, hs1s⟩ := splitFirst_eq_some hf
      have hsl1 : ¬ '/' ∈ s1 := fun hc => hw2s (hw2 ▸ List.mem_append_left _ hc)
      unfold splitparams
      rw [if_pos (hasChar_iff.mpr (List.mem_append_right _ (List.mem_cons_self _ _))),
        splitLast_sep _ hsl1]
      simp only [splitFirst_none hs1s]
  · rw [if_neg hs] at h
    cases hf : splitFirst ';' w with
    | none =>
      simp only [hf] at h
      have haw : a = w := (congrArg Prod.fst h).symm
      subst haw
      unfold splitparams
      rw [if_neg hs]
      simp only [hf]
    | some q =>
      obtain ⟨a0, b0⟩ := q
      simp only [hf] at h
      have haw : a = a0 := (congrArg Prod.fst h).symm
      subst haw
      obtain ⟨hw, has⟩ := splitFirst_eq_some hf
      exact absurd (hasChar_iff.mp ha) has

theorem asciiLowerChar_notupper {c : Char} (h : ¬ ('A' ≤ c ∧ c ≤ 'Z')) :
    asciiLowerChar c = c := by
  unfold asciiLowerChar
  rw [if_neg h]

theorem asciiLowerChar_toNat {c : Char} (h : 'A' ≤ c ∧ c ≤ 'Z') :
    (asciiLowerChar c).toNat = c.toNat + 32 ∧ asciiLowerChar c = Char.ofNat (c.toNat + 32) := by
  unfold asciiLowerChar
  rw [if_pos h]
  refine ⟨?_, rfl⟩
  apply charToNat_ofNat
  left
  have := charLe_iff.mp h.2
  simp [Char.toNat, UInt32.size] at this ⊢
  omega

theorem charEq_iff {c d : Char} : c = d ↔ c.toNat = d.toNat := by
  constructor
  · rintro rfl; rfl
  · intro h
    have := Char.ofNat_toNat c
    rw [h, Char.ofNat_toNat] at this
    exact this.symm

theorem isAsciiAlpha_toNat {c : Char} :
    isAsciiAlpha c = true ↔ (65 ≤ c.toNat ∧ c.toNat ≤ 90) ∨ (97 ≤ c.toNat ∧ c.toNat ≤ 122) := by
  simp only [isAsciiAlpha, Char.isAlpha, Char.isUpper, Char.isLower, Bool.and_eq_true,
    Bool.or_eq_true, decide_eq_true_eq]
  constructor
  · rintro ⟨h0, ⟨h1, h2⟩ | ⟨h1, h2⟩⟩
    · exact Or.inl ⟨by simpa [UInt32.size] using uintLe_iff.mp h1,
        by simpa [UInt32.size] using uintLe_iff.mp h2⟩
    · exact Or.inr ⟨by simpa [UInt32.size] using uintLe_iff.mp h1,
        by simpa [UInt32.size] using uintLe_iff.mp h2⟩
  · intro h
    have hlt : c.toNat < 128 := by rcases h with ⟨h1, h2⟩ | ⟨h1, h2⟩ <;> omega
    refine ⟨hlt, ?_⟩
    rcases h with ⟨h1, h2⟩ | ⟨h1, h2⟩
    · exact Or.inl ⟨uintLe_iff.mpr (by simpa [UInt32.size] using h1),
        uintLe_iff.mpr (by simpa [UInt32.size] using h2)⟩
    · exact Or.inr ⟨uintLe_iff.mpr (by simpa [UInt32.size] using h1),
        uintLe_iff.mpr (by simpa [UInt32.size] using h2)⟩

theorem charLe_toNat_iff {c d : Char} : c ≤ d ↔ c.toNat ≤ d.toNat := charLe_iff

theorem upper_range_iff {c : Char} : ('A' ≤ c ∧ c ≤ 'Z') ↔ (65 ≤ c.toNat ∧ c.toNat ≤ 90) := by
  rw [charLe_iff, charLe_iff]
  have h1 : ('A').toNat = 65 := rfl
  have h2 : ('Z').toNat = 90 := rfl
  rw [h1, h2]

theorem asciiLowerChar_alpha {c : Char} (h : isAsciiAlpha c = true) :
    isAsciiAlpha (asciiLowerChar c) = true := by
  by_cases hu : 'A' ≤ c ∧ c ≤ 'Z'
  · obtain ⟨ht, -⟩ := asciiLowerChar_toNat hu
    rw [isAsciiAlpha_toNat, ht]
    have := upper_range_iff.mp hu
    omega
  · rwa [asciiLowerChar_notupper hu]

theorem digit_range_iff {c : Char} : ('0' ≤ c ∧ c ≤ '9') ↔ (48 ≤ c.toNat ∧ c.toNat ≤ 57) := by
  rw [charLe_iff, charLe_iff]
  have h1 : ('0').toNat = 48 := rfl
  have h2 : ('9').toNat = 57 := rfl
  rw [h1, h2]

theorem isDigit_toNat {c : Char} :
    c.isDigit = true ↔ 48 ≤ c.toNat ∧ c.toNat ≤ 57 := by
  simp only [Char.isDigit, Bool.and_eq_true, decide_eq_true_eq]
  constructor
  · rintro ⟨h1, h2⟩
    exact ⟨by simpa [UInt32.size] using uintLe_iff.mp h1,
      by simpa [UInt32.size] using uintLe_iff.mp h2⟩
  · rintro ⟨h1, h2⟩
    exact ⟨uintLe_iff.mpr (by simpa [UInt32.size] using h1),
      uintLe_iff.mpr (by simpa [UInt32.size] using h2)⟩

theorem isSchemeChar_lower {c : Char} (h : isSchemeChar c = true) :
    isSchemeChar (asciiLowerChar c) = true := by
  by_cases hu : 'A' ≤ c ∧ c ≤ 'Z'
  · have halpha : isAsciiAlpha c = true := by
      rw [isAsciiAlpha_toNat]
      exact Or.inl (upper_range_iff.mp hu)
    have := asciiLowerChar_alpha halpha
    rw [isAsciiAlpha] at this
    simp only [Bool.and_eq_true, decide_eq_true_eq] at this
    simp [isSchemeChar, this.2]
  · rwa [asciiLowerChar_notupper hu]

theorem schemeSplit_spec {u s r : Str} (h : schemeSplit u = (s, r)) :
    (s = [] ∧ r = u ∧
      ∀ a b, splitFirst ':' u = some (a, b) →
        ¬(a ≠ [] ∧ isAsciiAlpha (a.headD ' ') = true ∧ a.all isSchemeChar = true)) ∨
    (∃ pre, splitFirst ':' u = some (pre, r) ∧ pre ≠ [] ∧
      isAsciiAlpha (pre.headD ' ') = true ∧ pre.all isSchemeChar = true ∧
      s = asciiLower pre) := by
  unfold schemeSplit at h
  split at h
  · next pre rest heq =>
    split at h
    · next hc =>
      have hr : rest = r := congrArg Prod.snd h
      have hs2 : asciiLower pre = s := congrArg Prod.fst h
      right
      exact ⟨pre, by rw [heq, hr], hc.1, hc.2.1, hc.2.2, hs2.symm⟩
    · next hc =>
      left
      refine ⟨(congrArg Prod.fst h).symm, (congrArg Prod.snd h).symm, ?_⟩
      intro a b hab
      rw [heq] at hab
      injection hab with hab2
      have ha : a = pre := (congrArg Prod.fst hab2).symm
      subst ha
      exact hc
  · next heq =>
    left
    refine ⟨(congrArg Prod.fst h).symm, (congrArg Prod.snd h).symm, ?_⟩
    intro a b hab
    rw [heq] at hab
    cases hab

theorem schemeSplit_attach {sc X : Str} (h1 : sc ≠ [])
    (h2 : isAsciiAlpha (sc.headD ' ') = true) (h3 : sc.all isSchemeChar = true)
    (h4 : asciiLower sc = sc) :
    schemeSplit (sc ++ ':' :: X) = (sc, X) := by
  have hnc : ¬ ':' ∈ sc := by
    intro hc
    have := List.all_eq_true.mp h3 ':' hc
    simp [isSchemeChar] at this
  unfold schemeSplit
  simp only [splitFirst_sep _ hnc]
  rw [if_pos ⟨h1, h2, h3⟩, h4]

theorem schemeSplit_headNotAlpha {u : Str} (h : isAsciiAlpha (u.headD ' ') = false) :
    schemeSplit u = ([], u) := by
  unfold schemeSplit
  split
  · next pre rest heq =>
    rw [if_neg]
    intro ⟨hp1, hp2, hp3⟩
    obtain ⟨hu, -⟩ := splitFirst_eq_some heq
    cases pre with
    | nil => exact hp1 rfl
    | cons c cs =>
      rw [hu] at h
      simp only [List.cons_append, List.headD_cons] at h hp2
      rw [hp2] at h
      cases h
  · rfl

theorem schemeSplit_of_path {pp rest : Str}
    (hm : rest = [] ∨ (isSchemeChar (rest.headD ' ') = false ∧ rest.headD ' ' ≠ ':'))
    (hps : ∀ a b, splitFirst ':' pp = some (a, b) →
      a = [] ∨ isAsciiAlpha (a.headD ' ') = false ∨ ∃ c ∈ a, isSchemeChar c = false) :
    schemeSplit (pp ++ rest) = ([], pp ++ rest) := by
  unfold schemeSplit
  split
  · next pre tl hf =>
    rw [if_neg]
    intro ⟨hp1, hp2, hp3⟩
    cases hin : splitFirst ':' pp with
    | some q2 =>
      obtain ⟨a0, b0⟩ := q2
      obtain ⟨hppeq, ha0⟩ := splitFirst_eq_some hin
      have heq : splitFirst ':' (pp ++ rest) = some (a0, b0 ++ rest) := by
        rw [hppeq, List.append_assoc, List.cons_append, splitFirst_sep _ ha0]
      rw [heq] at hf
      injection hf with hf2
      have hpre : a0 = pre := congrArg Prod.fst hf2
      subst hpre
      rcases hps _ _ hin with h | h | ⟨c, hc1, hc2⟩
      · exact hp1 h
      · rw [hp2] at h; cases h
      · have := List.all_eq_true.mp hp3 c hc1
        rw [hc2] at this
        cases this
    | none =>
      have hnp : ¬ ':' ∈ pp := splitFirst_eq_none hin
      rcases hm with rfl | ⟨hm1, hm2⟩
      · rw [List.append_nil] at hf
        rw [hin] at hf
        cases hf
      · cases rest with
        | nil =>
          rw [List.append_nil, hin] at hf
          cases hf
        | cons m rest2 =>
          simp only [List.headD_cons] at hm1 hm2
          have hm3 : m ≠ ':' := hm2
          have heq := @splitFirst_append ':' _ (m :: rest2) hnp
          rw [heq] at hf
          cases hg : splitFirst ':' (m :: rest2) with
          | none => rw [hg] at hf; cases hf
          | some q3 =>
            obtain ⟨a1, b1⟩ := q3
            rw [hg] at hf
            simp only [Option.map_some', Option.some_inj] at hf
            have hpre : pre = pp ++ a1 := (congrArg Prod.fst hf).symm
            subst hpre
            simp only [splitFirst] at hg
            rw [if_neg hm3] at hg
            cases hg2 : splitFirst ':' rest2 with
            | none => rw [hg2] at hg; cases hg
            | some q4 =>
              obtain ⟨a2, b2⟩ := q4
              rw [hg2] at hg
              simp only [Option.map_some', Option.some_inj] at hg
              have ha1 : m :: a2 = a1 := congrArg Prod.fst hg
              subst ha1
              have hmem : m ∈ pp ++ m :: a2 :=
                List.mem_append_right _ (List.mem_cons_self _ _)
              have := List.all_eq_true.mp hp3 m hmem
              rw [hm1] at this
              cases this
  · rfl

theorem fragQuerySplit_eq {w p q f : Str} (h : fragQuerySplit w = (p, q, f)) :
    (∃ t, w = p ++ t ∧ (t = [] ∨ t.headD ' ' = '?' ∨ t.headD ' ' = '#')) ∧
    ¬ '#' ∈ p ∧ ¬ '?' ∈ p ∧ ¬ '#' ∈ q ∧
    (∀ c ∈ q, c ∈ w) ∧ (∀ c ∈ f, c ∈ w) := by
  unfold fragQuerySplit at h
  split at h
  · next u3 frag heq =>
    obtain ⟨hw, hnh⟩ := splitFirst_eq_some heq
    split at h
    · next pth qry heq2 =>
      obtain ⟨hu3, hnq⟩ := splitFirst_eq_some heq2
      simp only [Prod.mk.injEq] at h
      obtain ⟨rfl, rfl, rfl⟩ := h
      have hph : ¬ '#' ∈ pth := fun hc => hnh (hu3 ▸ List.mem_append_left _ hc)
      have hqh : ¬ '#' ∈ qry := fun hc =>
        hnh (hu3 ▸ List.mem_append_right _ (List.mem_cons_of_mem _ hc))
      refine ⟨⟨'?' :: qry ++ '#' :: frag, ?_, Or.inr (Or.inl rfl)⟩, hph, hnq, hqh, ?_, ?_⟩
      · rw [hw, hu3]; simp
      · intro c hc
        rw [hw, hu3]
        simp [hc]
      · intro c hc
        rw [hw]
        simp [hc]
    · next heq2 =>
      have hnq : ¬ '?' ∈ u3 := splitFirst_eq_none heq2
      simp only [Prod.mk.injEq] at h
      obtain ⟨rfl, hq0, rfl⟩ := h
      subst hq0
      refine ⟨⟨'#' :: frag, hw, Or.inr (Or.inr rfl)⟩, hnh, hnq, by simp, by simp, ?_⟩
      intro c hc
      rw [hw]
      simp [hc]
  · next heq =>
    have hnh : ¬ '#' ∈ w := splitFirst_eq_none heq
    split at h
    · next pth qry heq2 =>
      obtain ⟨hw, hnq⟩ := splitFirst_eq_some heq2
      simp only [Prod.mk.injEq] at h
      obtain ⟨rfl, rfl, hf0⟩ := h
      subst hf0
      have hph : ¬ '#' ∈ pth := fun hc => hnh (hw ▸ List.mem_append_left _ hc)
      have hqh : ¬ '#' ∈ qry := fun hc =>
        hnh (hw ▸ List.mem_append_right _ (List.mem_cons_of_mem _ hc))
      refine ⟨⟨'?' :: qry, hw, Or.inr (Or.inl rfl)⟩, hph, hnq, hqh, ?_, by simp⟩
      intro c hc
      rw [hw]
      simp [hc]
    · next heq2 =>
      have hnq : ¬ '?' ∈ w := splitFirst_eq_none heq2
      simp only [Prod.mk.injEq] at h
      obtain ⟨rfl, hq0, hf0⟩ := h
      subst hq0; subst hf0
      exact ⟨⟨[], by simp, Or.inl rfl⟩, hnh, hnq, by simp, by simp, by simp⟩

theorem fragQuerySplit_rebuild {p q f : Str} (hp1 : ¬ '#' ∈ p) (hp2 : ¬ '?' ∈ p)
    (hq : ¬ '#' ∈ q) :
    fragQuerySplit ((if q = [] then p else p ++ '?' :: q) ++
      (if f = [] then [] else '#' :: f)) = (p, q, f) := by
  by_cases hqe : q = []
  · subst hqe
    by_cases hfe : f = []
    · subst hfe
      rw [if_pos rfl, if_pos rfl, List.append_nil]
      unfold fragQuerySplit
      rw [splitFirst_none hp1]
      simp only [splitFirst_none hp2]
    · rw [if_pos rfl, if_neg hfe]
      unfold fragQuerySplit
      rw [splitFirst_sep _ hp1]
      simp only [splitFirst_none hp2]
  · by_cases hfe : f = []
    · subst hfe
      rw [if_neg hqe, if_pos rfl, List.append_nil]
      have hh : ¬ '#' ∈ p ++ '?' :: q := by
        intro hc
        rcases List.mem_append.mp hc with hc | hc
        · exact hp1 hc
        · rcases List.mem_cons.mp hc with hc | hc
          · simp at hc
          · exact hq hc
      unfold fragQuerySplit
      rw [splitFirst_none hh]
      simp only [splitFirst_sep _ hp2]
    · rw [if_neg hqe, if_neg hfe]
      have hh : ¬ '#' ∈ p ++ '?' :: q := by
        intro hc
        rcases List.mem_append.mp hc with hc | hc
        · exact hp1 hc
        · rcases List.mem_cons.mp hc with hc | hc
          · simp at hc
          · exact hq hc
      unfold fragQuerySplit
      rw [splitFirst_sep _ hh]
      simp only [splitFirst_sep _ hp2]

theorem unsafe_imp_c0 {c : Char} (h : isC0OrSpace c = false) : isUnsafeUrlChar c = false := by
  by_cases h1 : c = '\t'
  · subst h1; simp [isC0OrSpace] at h
  · by_cases h2 : c = '\r'
    · subst h2; simp [isC0OrSpace] at h
    · by_cases h3 : c = '\n'
      · subst h3; simp [isC0OrSpace] at h
      · simp [isUnsafeUrlChar, h1, h2, h3]

theorem dropWhile_head {p : Char → Bool} :
    ∀ {w : Str} {c : Char} {rest : Str}, w.dropWhile p = c :: rest → p c = false := by
  intro w
  induction w with
  | nil => intro c rest h; simp at h
  | cons d ds ih =>
    intro c rest h
    rw [List.dropWhile_cons] at h
    split at h
    · exact ih h
    · next hd =>
      injection h with h1 h2
      subst h1
      simpa using hd

theorem netlocDelim_cases {c : Char} (h : isNetlocDelim c = true) :
    c = '/' ∨ c = '?' ∨ c = '#' := by
  simpa [isNetlocDelim] using h

theorem urlsplit_shape {u : Str} {sp : SplitResult} (h : urlsplit u = .ok sp) :
    SplitShape sp.scheme sp.netloc sp.path sp.query sp.fragment := by
  have hu0c : ∀ c ∈ (u.dropWhile isC0OrSpace).filter (fun c => !isUnsafeUrlChar c),
      isUnsafeUrlChar c = false := by
    intro c hc
    simpa using (List.mem_filter.mp hc).2
  have hu0h : ∀ {c rest},
      (u.dropWhile isC0OrSpace).filter (fun c => !isUnsafeUrlChar c) = c :: rest →
      isC0OrSpace c = false := by
    intro c rest hcr
    cases hd : u.dropWhile isC0OrSpace with
    | nil => rw [hd] at hcr; simp at hcr
    | cons c0 rest0 =>
      have hc0 : isC0OrSpace c0 = false := dropWhile_head hd
      rw [hd] at hcr
      rw [List.filter_cons, if_pos (by simp [unsafe_imp_c0 hc0])] at hcr
      injection hcr with h1 h2
      subst h1
      exact hc0
  simp only [urlsplit] at h
  rcases hss : schemeSplit ((u.dropWhile isC0OrSpace).filter (fun c => !isUnsafeUrlChar c))
    with ⟨sch, u1⟩
  rw [hss] at h
  simp only at h
  have hspec := schemeSplit_spec hss
  have hschemeok : sch = [] ∨ (sch ≠ [] ∧ isAsciiAlpha (sch.headD ' ') = true ∧
      sch.all isSchemeChar = true) := by
    rcases hspec with ⟨rfl, -, -⟩ | ⟨pre, -, hp1, hp2, hp3, rfl⟩
    · exact Or.inl rfl
    · right
      refine ⟨?_, ?_, ?_⟩
      · cases pre with
        | nil => exact absurd rfl hp1
        | cons c cs => simp [asciiLower]
      · cases pre with
        | nil => exact absurd rfl hp1
        | cons c cs =>
          simp only [asciiLower, List.map_cons, List.headD_cons] at hp2 ⊢
          exact asciiLowerChar_alpha hp2
      · rw [List.all_eq_true] at hp3 ⊢
        intro x hx
        simp only [asciiLower, List.mem_map] at hx
        obtain ⟨c, hc, rfl⟩ := hx
        exact isSchemeChar_lower (hp3 c hc)
  have hschlow : asciiLower sch = sch := by
    rcases hspec with ⟨rfl, -, -⟩ | ⟨pre, -, -, -, -, rfl⟩
    · rfl
    · exact asciiLower_idem pre
  have hu1mem : ∀ c ∈ u1, c ∈ (u.dropWhile isC0OrSpace).filter (fun c => !isUnsafeUrlChar c) := by
    rcases hspec with ⟨-, rfl, -⟩ | ⟨pre, hsf, -, -, -, -⟩
    · exact fun c hc => hc
    · obtain ⟨hu0, -⟩ := splitFirst_eq_some hsf
      intro c hc
      rw [hu0]
      exact List.mem_append_right _ (List.mem_cons_of_mem _ hc)
  split at h
  · -- netloc branch: u1 starts with //
    next htake =>
    rcases hfq : fragQuerySplit ((u1.drop 2).dropWhile (fun c => !isNetlocDelim c))
      with ⟨pth, qry, frg⟩
    rw [hfq] at h
    split at h
    · cases h
    · next hbr =>
      simp only at h
      injection h with h2
      subst h2
      show SplitShape sch ((u1.drop 2).takeWhile (fun c => !isNetlocDelim c)) pth qry frg
      obtain ⟨⟨t, hpre0, hthead⟩, hph, hpq, hqh, hqmem, hfmem⟩ := fragQuerySplit_eq hfq
      have hnlmem : ∀ c ∈ (u1.drop 2).takeWhile (fun c => !isNetlocDelim c), c ∈ u1 := by
        intro c hc
        exact (List.drop_subset _ _) ((List.takeWhile_sublist _).subset hc)
      have hu2mem : ∀ c ∈ (u1.drop 2).dropWhile (fun c => !isNetlocDelim c), c ∈ u1 := by
        intro c hc
        exact (List.drop_subset _ _) ((List.dropWhile_sublist _).subset hc)
      have hpmem : ∀ c ∈ pth, c ∈ (u1.drop 2).dropWhile (fun c => !isNetlocDelim c) := by
        intro c hc
        rw [hpre0]
        exact List.mem_append_left _ hc
      have hpslash : pth = [] ∨ pth.headD ' ' = '/' := by
        cases hp : pth with
        | nil => exact Or.inl rfl
        | cons c cs =>
          right
          have hu2head : (u1.drop 2).dropWhile (fun c => !isNetlocDelim c) = c :: (cs ++ t) := by
            rw [hpre0, hp]
            simp
          have hdelim : isNetlocDelim c = true := by
            have := dropWhile_head hu2head
            simpa using this
          rcases netlocDelim_cases hdelim with rfl | rfl | rfl
          · simp
          · exact absurd (by rw [hp]; exact List.mem_cons_self _ _) hpq
          · exact absurd (by rw [hp]; exact List.mem_cons_self _ _) hph
      refine ⟨hschemeok, hschlow, ?_, ?_, hph, hpq, hqh, ?_, ?_, ?_, ?_, fun _ => hpslash, ?_, ?_⟩
      · intro c hc
        have := List.mem_takeWhile_imp hc
        simpa using this
      · cases h1 : hasChar '[' ((u1.drop 2).takeWhile (fun c => !isNetlocDelim c)) <;>
          cases h2 : hasChar ']' ((u1.drop 2).takeWhile (fun c => !isNetlocDelim c)) <;>
          simp_all
      · exact fun c hc => hu0c c (hu1mem c (hnlmem c hc))
      · exact fun c hc => hu0c c (hu1mem c (hu2mem c (hpmem c hc)))
      · exact fun c hc => hu0c c (hu1mem c (hu2mem c (hqmem c hc)))
      · exact fun c hc => hu0c c (hu1mem c (hu2mem c (hfmem c hc)))
      · intro hsch hnl hpne
        rcases hpslash with rfl | hhead
        · exact absurd rfl hpne
        · rw [hhead]; rfl
      · intro hsch a b hab
        obtain ⟨hpeq, hna⟩ := splitFirst_eq_some hab
        cases a with
        | nil => exact Or.inl rfl
        | cons c cs =>
          right; left
          rcases hpslash with rfl | hhead
          · simp only [List.cons_append] at hpeq
            cases hpeq
          · have hc : c = '/' := by
              rw [hpeq] at hhead
              simpa using hhead
            subst hc
            simp only [List.headD_cons]
            decide
  · -- no netloc: u1 does not start with //
    next htake =>
    rcases hfq : fragQuerySplit u1 with ⟨pth, qry, frg⟩
    rw [hfq] at h
    simp only at h
    injection h with h2
    subst h2
    show SplitShape sch [] pth qry frg
    obtain ⟨⟨t, hpre0, hthead⟩, hph, hpq, hqh, hqmem, hfmem⟩ := fragQuerySplit_eq hfq
    have hpmem : ∀ c ∈ pth, c ∈ u1 := by
      intro c hc
      rw [hpre0]
      exact List.mem_append_left _ hc
    refine ⟨hschemeok, hschlow, by simp, rfl, hph, hpq, hqh, by simp, ?_, ?_, ?_,
      fun hne => absurd rfl hne, ?_, ?_⟩
    · exact fun c hc => hu0c c (hu1mem c (hpmem c hc))
    · exact fun c hc => hu0c c (hu1mem c (hqmem c hc))
    · exact fun c hc => hu0c c (hu1mem c (hfmem c hc))
    · intro hsch hnl hpne
      rcases hspec with ⟨-, hu1eq, -⟩ | ⟨pre, -, hpre1, -, -, hschpre⟩
      · cases hp : pth with
        | nil => exact absurd hp hpne
        | cons c cs =>
          have : (u.dropWhile isC0OrSpace).filter (fun c => !isUnsafeUrlChar c) =
              c :: (cs ++ t) := by
            rw [← hu1eq, hpre0, hp]
            simp
          simp only [List.headD_cons]
          exact hu0h this
      · subst hschpre
        cases pre with
        | nil => exact absurd rfl hpre1
        | cons c cs => simp [asciiLower] at hsch
    · intro hsch a b hab
      rcases hspec with ⟨-, hu1eq, hrej⟩ | ⟨pre, -, hpre1, -, -, hschpre⟩
      · obtain ⟨hpeq, hna⟩ := splitFirst_eq_some hab
        have hu0eq : (u.dropWhile isC0OrSpace).filter (fun c => !isUnsafeUrlChar c) =
            a ++ ':' :: (b ++ t) := by
          rw [← hu1eq, hpre0, hpeq]
          simp
        have hsf : splitFirst ':'
            ((u.dropWhile isC0OrSpace).filter (fun c => !isUnsafeUrlChar c)) =
            some (a, b ++ t) := by
          rw [hu0eq]
          exact splitFirst_sep _ hna
        have hrej2 := hrej a (b ++ t) hsf
        by_cases h1 : a = []
        · exact Or.inl h1
        · by_cases h2 : isAsciiAlpha (a.headD ' ') = true
          · right; right
            by_cases h3 : a.all isSchemeChar = true
            · exact absurd ⟨h1, h2, h3⟩ hrej2
            · rw [Bool.not_eq_true, List.all_eq_false] at h3
              obtain ⟨x, hx1, hx2⟩ := h3
              exact ⟨x, hx1, by simpa using hx2⟩
          · right; left
            simpa using h2
      · subst hschpre
        cases pre with
        | nil => exact absurd rfl hpre1
        | cons c cs => simp [asciiLower] at hsch


theorem headD_append {a b : Str} {d : Char} (h : a ≠ []) :
    (a ++ b).headD d = a.headD d := by
  cases a with
  | nil => exact absurd rfl h
  | cons c cs => rfl

theorem take2_append_ne {pp S : Str}
    (hp2 : pp.take 2 ≠ ['/', '/'])
    (hShead : S = [] ∨ S.headD ' ' = '?' ∨ S.headD ' ' = '#') :
    (pp ++ S).take 2 ≠ ['/', '/'] := by
  match pp with
  | [] =>
    rcases hShead with rfl | h | h
    · simp
    · cases S with
      | nil => simp
      | cons c cs =>
        rw [List.headD_cons] at h
        subst h
        rw [List.nil_append]
        intro hcon
        injection hcon with h1 h2
        exact absurd h1 (by decide)
    · cases S with
      | nil => simp
      | cons c cs =>
        rw [List.headD_cons] at h
        subst h
        rw [List.nil_append]
        intro hcon
        injection hcon with h1 h2
        exact absurd h1 (by decide)
  | [p0] =>
    intro hcon
    rw [List.cons_append, List.nil_append] at hcon
    injection hcon with h1 h2
    subst h1
    cases S with
    | nil => exact absurd h2 (by simp)
    | cons c cs =>
      injection h2 with h3 h4
      rcases hShead with hS | hS | hS
      · cases hS
      · rw [List.headD_cons] at hS
        rw [hS] at h3
        exact absurd h3 (by decide)
      · rw [List.headD_cons] at hS
        rw [hS] at h3
        exact absurd h3 (by decide)
  | p0 :: p1 :: rest =>
    intro hcon
    rw [List.cons_append, List.cons_append] at hcon
    injection hcon with h1 h2
    injection h2 with h3 h4
    exact hp2 (by rw [h1, h3]; rfl)

theorem splitparams_join {w x y : Str} (h : splitparams w = (x, y)) :
    x ++ ';' :: y = w ∨ (y = [] ∧ x = w) := by
  unfold splitparams at h
  by_cases hs : hasChar '/' w
  · rw [if_pos hs] at h
    rcases splitLast_isSome (hasChar_iff.mp hs) with ⟨w1, w2, hl⟩
    simp only [hl] at h
    cases hf : splitFirst ';' w2 with
    | none =>
      simp only [hf] at h
      injection h with h1 h2
      exact Or.inr ⟨h2.symm, h1.symm⟩
    | some q =>
      obtain ⟨s1, s2⟩ := q
      simp only [hf] at h
      injection h with h1 h2
      left
      obtain ⟨hw, -⟩ := splitLast_eq_some hl
      obtain ⟨hw2, -⟩ := splitFirst_eq_some hf
      rw [← h1, ← h2, hw, hw2]
      simp
  · rw [if_neg hs] at h
    cases hf : splitFirst ';' w with
    | none =>
      simp only [hf] at h
      injection h with h1 h2
      exact Or.inr ⟨h2.symm, h1.symm⟩
    | some q =>
      obtain ⟨s1, s2⟩ := q
      simp only [hf] at h
      injection h with h1 h2
      left
      obtain ⟨hw2, -⟩ := splitFirst_eq_some hf
      rw [← h1, ← h2, ← hw2]

theorem urlsplit_marker {sc nl pp S : Str}
    (hsc : sc = [] ∨ (sc ≠ [] ∧ isAsciiAlpha (sc.headD ' ') = true ∧
      sc.all isSchemeChar = true))
    (hlow : asciiLower sc = sc)
    (hnl : ∀ c ∈ nl, isNetlocDelim c = false)
    (hbr : hasChar '[' nl = hasChar ']' nl)
    (hnlc : ∀ c ∈ nl, isUnsafeUrlChar c = false)
    (hppc : ∀ c ∈ pp, isUnsafeUrlChar c = false)
    (hSclean : ∀ c ∈ S, isUnsafeUrlChar c = false)
    (hShead : S = [] ∨ S.headD ' ' = '?' ∨ S.headD ' ' = '#')
    (hppH : pp = [] ∨ pp.headD ' ' = '/') :
    urlsplit (if sc ≠ [] then sc ++ ':' :: ('/' :: '/' :: (nl ++ pp) ++ S)
        else '/' :: '/' :: (nl ++ pp) ++ S) =
      .ok ⟨sc, nl, (fragQuerySplit (pp ++ S)).1, (fragQuerySplit (pp ++ S)).2.1,
        (fragQuerySplit (pp ++ S)).2.2⟩ := by
  have hUc : ∀ c ∈ ('/' :: '/' :: (nl ++ pp) ++ S), isUnsafeUrlChar c = false := by
    intro c hc
    rcases List.mem_append.mp hc with hc | hc
    · rcases List.mem_cons.mp hc with rfl | hc
      · rfl
      · rcases List.mem_cons.mp hc with rfl | hc
        · rfl
        · rcases List.mem_append.mp hc with hc | hc
          · exact hnlc c hc
          · exact hppc c hc
    · exact hSclean c hc
  have hTail : pp ++ S = [] ∨ (!isNetlocDelim ((pp ++ S).headD ' ')) = false := by
    rcases hppH with rfl | hp
    · rcases hShead with rfl | h | h
      · exact Or.inl rfl
      · right
        rw [List.nil_append, h]
        rfl
      · right
        rw [List.nil_append, h]
        rfl
    · cases pp with
      | nil => exact absurd hp (by decide)
      | cons c cs =>
        right
        rw [List.cons_append, List.headD_cons]
        rw [List.headD_cons] at hp
        rw [hp]
        rfl
  have htake : (('/' :: '/' :: (nl ++ pp)) ++ S).take 2 = ['/', '/'] := rfl
  have hdrop2 : (('/' :: '/' :: (nl ++ pp)) ++ S).drop 2 = nl ++ (pp ++ S) :=
    List.append_assoc nl pp S
  have hall : ∀ x ∈ nl, (!isNetlocDelim x) = true := by
    intro x hx
    rw [hnl x hx]
    rfl
  have htw : (nl ++ (pp ++ S)).takeWhile (fun c => !isNetlocDelim c) = nl := by
    rw [takeWhile_append_all _ hall, takeWhile_head_false hTail, List.append_nil]
  have hdw : (nl ++ (pp ++ S)).dropWhile (fun c => !isNetlocDelim c) = pp ++ S := by
    rw [dropWhile_append_all _ hall]
    exact dropWhile_head_false hTail
  have hbrf : ¬ ((hasChar '[' nl = true ∧ ¬ hasChar ']' nl = true) ∨
      (hasChar ']' nl = true ∧ ¬ hasChar '[' nl = true)) := by
    rw [hbr]
    rintro (⟨h1, h2⟩ | ⟨h1, h2⟩) <;> exact h2 h1
  by_cases hscn : sc ≠ []
  · rcases hsc with rfl | ⟨-, hal, hall2⟩
    · exact absurd rfl hscn
    rw [if_pos hscn]
    have h0 : ((sc ++ ':' :: ('/' :: '/' :: (nl ++ pp) ++ S)).dropWhile isC0OrSpace) =
        sc ++ ':' :: ('/' :: '/' :: (nl ++ pp) ++ S) := by
      apply dropWhile_head_false
      right
      rw [headD_append hscn]
      exact isAsciiAlpha_not_c0 hal
    have h1 : (sc ++ ':' :: ('/' :: '/' :: (nl ++ pp) ++ S)).filter
        (fun c => !isUnsafeUrlChar c) = sc ++ ':' :: ('/' :: '/' :: (nl ++ pp) ++ S) := by
      apply List.filter_eq_self.mpr
      intro a ha
      rcases List.mem_append.mp ha with ha | ha
      · rw [(isSchemeChar_props (List.all_eq_true.mp hall2 a ha)).2]
        rfl
      · rcases List.mem_cons.mp ha with rfl | ha
        · rfl
        · rw [hUc a ha]
          rfl
    have h2 : schemeSplit (sc ++ ':' :: ('/' :: '/' :: (nl ++ pp) ++ S)) =
        (sc, '/' :: '/' :: (nl ++ pp) ++ S) := schemeSplit_attach hscn hal hall2 hlow
    unfold urlsplit
    simp only [h0, h1, h2]
    rw [if_pos htake, hdrop2, htw, hdw, if_neg hbrf]
  · rw [if_neg hscn]
    rw [not_not] at hscn
    subst hscn
    have h0 : (('/' :: '/' :: (nl ++ pp) ++ S).dropWhile isC0OrSpace) =
        '/' :: '/' :: (nl ++ pp) ++ S :=
      dropWhile_head_false (Or.inr rfl)
    have h1 : (('/' :: '/' :: (nl ++ pp) ++ S)).filter (fun c => !isUnsafeUrlChar c) =
        '/' :: '/' :: (nl ++ pp) ++ S := by
      apply List.filter_eq_self.mpr
      intro a ha
      ·  rw [hUc a ha]
         rfl
    have h2 : schemeSplit ('/' :: '/' :: (nl ++ pp) ++ S) =
        ([], '/' :: '/' :: (nl ++ pp) ++ S) :=
      schemeSplit_headNotAlpha rfl
    unfold urlsplit
    simp only [h0, h1, h2]
    rw [if_pos htake, hdrop2, htw, hdw, if_neg hbrf]

theorem urlsplit_nonetloc {sc pp S : Str}
    (hsc : sc = [] ∨ (sc ≠ [] ∧ isAsciiAlpha (sc.headD ' ') = true ∧
      sc.all isSchemeChar = true))
    (hlow : asciiLower sc = sc)
    (hppc : ∀ c ∈ pp, isUnsafeUrlChar c = false)
    (hSclean : ∀ c ∈ S, isUnsafeUrlChar c = false)
    (hShead : S = [] ∨ S.headD ' ' = '?' ∨ S.headD ' ' = '#')
    (hp2 : pp.take 2 ≠ ['/', '/'])
    (hhead : sc = [] → pp ≠ [] → isC0OrSpace (pp.headD ' ') = false)
    (hamb : sc = [] → ∀ a b, splitFirst ':' pp = some (a, b) →
      a = [] ∨ isAsciiAlpha (a.headD ' ') = false ∨ ∃ c ∈ a, isSchemeChar c = false) :
    urlsplit (if sc ≠ [] then sc ++ ':' :: (pp ++ S) else pp ++ S) =
      .ok ⟨sc, [], (fragQuerySplit (pp ++ S)).1, (fragQuerySplit (pp ++ S)).2.1,
        (fragQuerySplit (pp ++ S)).2.2⟩ := by
  have htake : (pp ++ S).take 2 ≠ ['/', '/'] := take2_append_ne hp2 hShead
  have hXc : ∀ c ∈ pp ++ S, isUnsafeUrlChar c = false := by
    intro c hc
    rcases List.mem_append.mp hc with hc | hc
    · exact hppc c hc
    · exact hSclean c hc
  by_cases hscn : sc ≠ []
  · rcases hsc with rfl | ⟨-, hal, hall2⟩
    · exact absurd rfl hscn
    rw [if_pos hscn]
    have h0 : ((sc ++ ':' :: (pp ++ S)).dropWhile isC0OrSpace) =
        sc ++ ':' :: (pp ++ S) := by
      apply dropWhile_head_false
      right
      rw [headD_append hscn]
      exact isAsciiAlpha_not_c0 hal
    have h1 : (sc ++ ':' :: (pp ++ S)).filter (fun c => !isUnsafeUrlChar c) =
        sc ++ ':' :: (pp ++ S) := by
      apply List.filter_eq_self.mpr
      intro a ha
      rcases List.mem_append.mp ha with ha | ha
      · rw [(isSchemeChar_props (List.all_eq_true.mp hall2 a ha)).2]
        rfl
      · rcases List.mem_cons.mp ha with rfl | ha
        · rfl
        · rw [hXc a ha]
          rfl
    have h2 : schemeSplit (sc ++ ':' :: (pp ++ S)) = (sc, pp ++ S) :=
      schemeSplit_attach hscn hal hall2 hlow
    unfold urlsplit
    simp only [h0, h1, h2]
    rw [if_neg htake]
  · rw [if_neg hscn]
    rw [not_not] at hscn
    subst hscn
    have h0 : ((pp ++ S).dropWhile isC0OrSpace) = pp ++ S := by
      apply dropWhile_head_false
      cases hpp : pp with
      | nil =>
        rcases hShead with rfl | h | h
        · exact Or.inl rfl
        · right
          rw [List.nil_append, h]
          rfl
        · right
          rw [List.nil_append, h]
          rfl
      | cons c cs =>
        right
        rw [headD_append (by simp)]
        rw [← hpp]
        exact hhead rfl (by rw [hpp]; simp)
    have h1 : ((pp ++ S)).filter (fun c => !isUnsafeUrlChar c) = pp ++ S := by
      apply List.filter_eq_self.mpr
      intro a ha
      rw [hXc a ha]
      rfl
    have hm : S = [] ∨ (isSchemeChar (S.headD ' ') = false ∧ S.headD ' ' ≠ ':') := by
      rcases hShead with rfl | h | h
      · exact Or.inl rfl
      · right
        rw [h]
        exact ⟨by decide, by decide⟩
      · right
        rw [h]
        exact ⟨by decide, by decide⟩
    have h2 : schemeSplit (pp ++ S) = ([], pp ++ S) :=
      schemeSplit_of_path hm (hamb rfl)
    unfold urlsplit
    simp only [h0, h1, h2]
    rw [if_neg htake]

theorem urlsplit_rebuild {sc nl pp q f : Str}
    (hsc : sc = [] ∨ (sc ≠ [] ∧ isAsciiAlpha (sc.headD ' ') = true ∧
      sc.all isSchemeChar = true))
    (hlow : asciiLower sc = sc)
    (hnl : ∀ c ∈ nl, isNetlocDelim c = false)
    (hbr : hasChar '[' nl = hasChar ']' nl)
    (hph : ¬ '#' ∈ pp) (hpq : ¬ '?' ∈ pp) (hqh : ¬ '#' ∈ q)
    (hnlc : ∀ c ∈ nl, isUnsafeUrlChar c = false)
    (hppc : ∀ c ∈ pp, isUnsafeUrlChar c = false)
    (hqc : ∀ c ∈ q, isUnsafeUrlChar c = false)
    (hfc : ∀ c ∈ f, isUnsafeUrlChar c = false)
    (hslash : nl ≠ [] → pp = [] ∨ pp.headD ' ' = '/')
    (hhead : sc = [] → nl = [] → pp ≠ [] → isC0OrSpace (pp.headD ' ') = false)
    (hamb : sc = [] → ∀ a b, splitFirst ':' pp = some (a, b) →
      a = [] ∨ isAsciiAlpha (a.headD ' ') = false ∨ ∃ c ∈ a, isSchemeChar c = false)
    (hsafe : nl ≠ [] ∨ (pp.take 2 ≠ ['/', '/'] ∧
      (sc ≠ [] → memStr sc uses_netloc = true → pp = [] ∨ pp.headD ' ' = '/'))) :
    urlsplit (urlunsplit sc nl pp q f) = .ok ⟨sc, nl, pp, q, f⟩ := by
  have hfq : fragQuerySplit (pp ++ ((if q = [] then [] else '?' :: q) ++
      (if f = [] then [] else '#' :: f))) = (pp, q, f) := by
    have h2 := @fragQuerySplit_rebuild pp q f hph hpq hqh
    by_cases hq : q = []
    · simpa [hq] using h2
    · simpa [hq, List.append_assoc] using h2
  have hShead : ((if q = [] then [] else '?' :: q) ++
      (if f = [] then [] else '#' :: f)) = [] ∨
      ((if q = [] then [] else '?' :: q) ++
        (if f = [] then [] else '#' :: f)).headD ' ' = '?' ∨
      ((if q = [] then [] else '?' :: q) ++
        (if f = [] then [] else '#' :: f)).headD ' ' = '#' := by
    by_cases hq : q = []
    · by_cases hf : f = []
      · simp [hq, hf]
      · simp [hq, hf]
    · simp [hq]
  have hSclean : ∀ c ∈ ((if q = [] then [] else '?' :: q) ++
      (if f = [] then [] else '#' :: f)), isUnsafeUrlChar c = false := by
    intro c hc
    rcases List.mem_append.mp hc with hc | hc
    · split at hc
      · simp at hc
      · rcases List.mem_cons.mp hc with rfl | hc
        · rfl
        · exact hqc c hc
    · split at hc
      · simp at hc
      · rcases List.mem_cons.mp hc with rfl | hc
        · rfl
        · exact hfc c hc
  by_cases hC : nl ≠ [] ∨ (sc ≠ [] ∧ memStr sc uses_netloc = true ∧ pp.take 2 ≠ ['/', '/'])
  · have hnoprep : ¬ (pp ≠ [] ∧ pp.headD ' ' ≠ '/') := by
      rcases hC with hC | ⟨hC1, hC2, hC3⟩
      · rcases hslash hC with hpp | hpp
        · exact fun hcon => hcon.1 hpp
        · exact fun hcon => hcon.2 hpp
      · rcases hsafe with hns | ⟨-, hs2⟩
        · rcases hslash hns with hpp | hpp
          · exact fun hcon => hcon.1 hpp
          · exact fun hcon => hcon.2 hpp
        · rcases hs2 hC1 hC2 with hpp | hpp
          · exact fun hcon => hcon.1 hpp
          · exact fun hcon => hcon.2 hpp
    have hppH : pp = [] ∨ pp.headD ' ' = '/' := by
      by_cases hpe : pp = []
      · exact Or.inl hpe
      · right
        by_contra hne
        exact hnoprep ⟨hpe, hne⟩
    have hu1 : urlunsplit sc nl pp q f =
        (if sc ≠ [] then sc ++ ':' :: ('/' :: '/' :: (nl ++ pp) ++
            ((if q = [] then [] else '?' :: q) ++ (if f = [] then [] else '#' :: f)))
          else '/' :: '/' :: (nl ++ pp) ++
            ((if q = [] then [] else '?' :: q) ++ (if f = [] then [] else '#' :: f))) := by
      unfold urlunsplit
      rw [if_pos hC, if_neg hnoprep]
      by_cases hs : sc ≠ [] <;> by_cases hq : q = [] <;> by_cases hf : f = [] <;>
        simp [hs, hq, hf, List.append_assoc]
    rw [hu1, urlsplit_marker hsc hlow hnl hbr hnlc hppc hSclean hShead hppH, hfq]
  · have hnl0 : nl = [] := by
      by_contra hne
      exact hC (Or.inl hne)
    subst hnl0
    rcases hsafe with hne | ⟨hp2, hs2⟩
    · exact absurd rfl hne
    have hu1 : urlunsplit sc [] pp q f =
        (if sc ≠ [] then sc ++ ':' :: (pp ++
            ((if q = [] then [] else '?' :: q) ++ (if f = [] then [] else '#' :: f)))
          else pp ++
            ((if q = [] then [] else '?' :: q) ++ (if f = [] then [] else '#' :: f))) := by
      unfold urlunsplit
      rw [if_neg hC]
      by_cases hs : sc ≠ [] <;> by_cases hq : q = [] <;> by_cases hf : f = [] <;>
        simp [hs, hq, hf, List.append_assoc]
    rw [hu1, urlsplit_nonetloc hsc hlow hppc hSclean hShead hp2
      (fun h1 => hhead h1 rfl) hamb, hfq]

/-- C10 (corrected): the query-filtering step's reassembly preserves the
scheme, netloc, path, params and fragment parsed from the current URL,
provided the reassembly is unambiguous: the URL has a netloc, or its
path-plus-params part does not begin with `//` and — when the scheme
customarily uses a netloc — is empty or starts with `/`.  (Without this
proviso `urlunparse` inserts a `//` or `///` marker that makes the rebuilt
URL reparse with a different path, e.g. `http:g` rebuilds to `http:///g`.) -/
theorem query_step_frame {url : Str} {pr : ParseResult} (qp : List (Str × Str))
    (hp : urlparse url = .ok pr)
    (hsafe : pr.netloc ≠ [] ∨
      ((if pr.params ≠ [] then pr.path ++ ';' :: pr.params else pr.path).take 2 ≠
          ['/', '/'] ∧
        (pr.scheme ≠ [] → memStr pr.scheme uses_netloc = true →
          (if pr.params ≠ [] then pr.path ++ ';' :: pr.params else pr.path) = [] ∨
          (if pr.params ≠ [] then pr.path ++ ';' :: pr.params else pr.path).headD ' ' =
            '/'))) :
    urlparse (urlunparse
        ⟨pr.scheme, pr.netloc, pr.path, pr.params, urlencode qp, pr.fragment⟩) =
      .ok ⟨pr.scheme, pr.netloc, pr.path, pr.params, urlencode qp, pr.fragment⟩ := by
  unfold urlparse at hp
  cases hs : urlsplit url with
  | error e =>
    simp only [hs] at hp
    cases hp
  | ok sp =>
    have hshape := urlsplit_shape hs
    simp only [hs] at hp
    split at hp
    · next hcond =>
      rcases hxy : splitparams sp.path with ⟨x, y⟩
      rw [hxy] at hp
      injection hp with hp
      subst hp
      have hsafe2 : sp.netloc ≠ [] ∨
          ((if y ≠ [] then x ++ ';' :: y else x).take 2 ≠ ['/', '/'] ∧
            (sp.scheme ≠ [] → memStr sp.scheme uses_netloc = true →
              (if y ≠ [] then x ++ ';' :: y else x) = [] ∨
              (if y ≠ [] then x ++ ';' :: y else x).headD ' ' = '/')) := hsafe
      have hun : urlunparse ⟨sp.scheme, sp.netloc, x, y, urlencode qp, sp.fragment⟩ =
          urlunsplit sp.scheme sp.netloc (if y ≠ [] then x ++ ';' :: y else x)
            (urlencode qp) sp.fragment := rfl
      show urlparse (urlunparse ⟨sp.scheme, sp.netloc, x, y, urlencode qp, sp.fragment⟩) =
        .ok ⟨sp.scheme, sp.netloc, x, y, urlencode qp, sp.fragment⟩
      rw [hun]
      have hcases : (if y ≠ [] then x ++ ';' :: y else x) = sp.path ∨
          (y = [] ∧ sp.path = x ++ [';']) := by
        rcases splitparams_join hxy with hj | ⟨hj1, hj2⟩
        · by_cases hy : y ≠ []
          · left
            rw [if_pos hy]
            exact hj
          · right
            rw [not_not] at hy
            subst hy
            exact ⟨rfl, hj.symm⟩
        · subst hj1
          left
          rw [if_neg (by simp)]
          exact hj2
      rcases hcases with hPPw | ⟨hy0, hxw⟩
      · rw [hPPw]
        rw [hPPw] at hsafe2
        have hreb := urlsplit_rebuild hshape.scheme_ok hshape.scheme_low
          hshape.netloc_ok hshape.netloc_br hshape.path_hash hshape.path_q
          (urlencode_no_hash qp) hshape.netloc_clean hshape.path_clean
          (urlencode_clean qp) hshape.frag_clean hshape.path_slash hshape.path_head
          hshape.path_scheme hsafe2
        unfold urlparse
        simp only [hreb]
        rw [if_pos hcond, hxy]
      · subst hy0
        have hPPx : (if ([] : Str) ≠ [] then x ++ ';' :: ([] : Str) else x) = x :=
          if_neg (by simp)
        rw [hPPx]
        rw [hPPx] at hsafe2
        have hwne : sp.path ≠ [] := by
          rw [hxw]
          simp
        have hph2 : ¬ '#' ∈ x := fun hc =>
          hshape.path_hash (by rw [hxw]; exact List.mem_append_left _ hc)
        have hpq2 : ¬ '?' ∈ x := fun hc =>
          hshape.path_q (by rw [hxw]; exact List.mem_append_left _ hc)
        have hppc2 : ∀ c ∈ x, isUnsafeUrlChar c = false := fun c hc =>
          hshape.path_clean c (by rw [hxw]; exact List.mem_append_left _ hc)
        have hslash2 : sp.netloc ≠ [] → x = [] ∨ x.headD ' ' = '/' := by
          intro hne
          by_cases hxe : x = []
          · exact Or.inl hxe
          · right
            rcases hshape.path_slash hne with hz | hz
            · exact absurd hz hwne
            · rw [hxw, headD_append hxe] at hz
              exact hz
        have hhead2 : sp.scheme = [] → sp.netloc = [] → x ≠ [] →
            isC0OrSpace (x.headD ' ') = false := by
          intro h1 h2 h3
          have h4 := hshape.path_head h1 h2 hwne
          rw [hxw, headD_append h3] at h4
          exact h4
        have hamb2 : sp.scheme = [] → ∀ a b, splitFirst ':' x = some (a, b) →
            a = [] ∨ isAsciiAlpha (a.headD ' ') = false ∨
              ∃ c ∈ a, isSchemeChar c = false := by
          intro h1 a b hsp
          obtain ⟨hxeq, hna⟩ := splitFirst_eq_some hsp
          have hwsp : splitFirst ':' sp.path = some (a, b ++ [';']) := by
            rw [hxw, hxeq, List.append_assoc, List.cons_append]
            exact splitFirst_sep (b ++ [';']) hna
          exact hshape.path_scheme h1 a (b ++ [';']) hwsp
        have hreb := urlsplit_rebuild hshape.scheme_ok hshape.scheme_low
          hshape.netloc_ok hshape.netloc_br hph2 hpq2 (urlencode_no_hash qp)
          hshape.netloc_clean hppc2 (urlencode_clean qp) hshape.frag_clean
          hslash2 hhead2 hamb2 hsafe2
        unfold urlparse
        simp only [hreb]
        by_cases hx : hasChar ';' x = true
        · have hk := splitparams_keep hxy hx
          rw [if_pos ⟨hcond.1, hx⟩, hk]
        · rw [if_neg (fun hcon => hx hcon.2)]
    · next hcond =>
      injection hp with hp
      subst hp
      have hsafe2 : sp.netloc ≠ [] ∨
          ((if ([] : Str) ≠ [] then sp.path ++ ';' :: ([] : Str) else sp.path).take 2 ≠
              ['/', '/'] ∧
            (sp.scheme ≠ [] → memStr sp.scheme uses_netloc = true →
              (if ([] : Str) ≠ [] then sp.path ++ ';' :: ([] : Str) else sp.path) = [] ∨
              (if ([] : Str) ≠ [] then sp.path ++ ';' :: ([] : Str) else
                sp.path).headD ' ' = '/')) := hsafe
      have hPPx : (if ([] : Str) ≠ [] then sp.path ++ ';' :: ([] : Str) else sp.path) =
          sp.path := if_neg (by simp)
      rw [hPPx] at hsafe2
      have hun : urlunparse
          ⟨sp.scheme, sp.netloc, sp.path, [], urlencode qp, sp.fragment⟩ =
          urlunsplit sp.scheme sp.netloc
            (if ([] : Str) ≠ [] then sp.path ++ ';' :: ([] : Str) else sp.path)
            (urlencode qp) sp.fragment := rfl
      show urlparse (urlunparse
          ⟨sp.scheme, sp.netloc, sp.path, [], urlencode qp, sp.fragment⟩) =
        .ok ⟨sp.scheme, sp.netloc, sp.path, [], urlencode qp, sp.fragment⟩
      rw [hun, hPPx]
      have hreb := urlsplit_rebuild hshape.scheme_ok hshape.scheme_low
        hshape.netloc_ok hshape.netloc_br hshape.path_hash hshape.path_q
        (urlencode_no_hash qp) hshape.netloc_clean hshape.path_clean
        (urlencode_clean qp) hshape.frag_clean hshape.path_slash hshape.path_head
        hshape.path_scheme hsafe2
      unfold urlparse
      simp only [hreb]
      rw [if_neg hcond]

/-- C10 counterexample to the claim as stated: for `http:g` (scheme `http`,
empty netloc, relative path `g`) the reassembly step changes the path — the
rebuilt URL is `http:///g`, which reparses with path `/g` instead of `g`. -/
theorem query_step_frame_counterexample :
    urlparse (str "http:g") = .ok ⟨str "http", [], str "g", [], [], []⟩ ∧
    urlunparse ⟨str "http", [], str "g", [], urlencode [], []⟩ = str "http:///g" ∧
    urlparse (str "http:///g") = .ok ⟨str "http", [], str "/g", [], [], []⟩ ∧
    str "/g" ≠ str "g" :=
  ⟨rfl, rfl, rfl, by decide⟩

/-- Witness: the corrected C10 theorem applied to a concrete URL with a
netloc, params and fragment. -/
theorem query_step_frame_witness :
    urlparse (urlunparse ⟨str "https", str "example.com", str "/a", str "p",
        urlencode [(str "x", str "1")], str "f"⟩) =
      .ok ⟨str "https", str "example.com", str "/a", str "p",
        urlencode [(str "x", str "1")], str "f"⟩ :=
  query_step_frame [(str "x", str "1")]
    (show urlparse (str "https://example.com/a;p?x=1&utm=2#f") =
        .ok ⟨str "https", str "example.com", str "/a", str "p",
          str "x=1&utm=2", str "f"⟩ from rfl)
    (Or.inl (by decide))
